import Mathlib

/-!
Verification of the market-basket-analysis core: the weighted undirected
item graph (`src/data_structures/graph.py`), the transaction graph builder
(`src/algorithms/graph_builder.py`), the BFS/DFS traversals
(`src/algorithms/search.py`) and the stable merge sort
(`src/algorithms/sorting.py`).

Python dictionaries preserve insertion order, so the adjacency structure
`{item: {neighbor: weight, ...}}` is embedded as an insertion-ordered
association list.  `ValueError` and `KeyError` of the source are the
`InvalidArgument` / `NotFound` variants of `Err` below.
-/

namespace MBA

/-- The two error kinds of the source: `ValueError` (`InvalidArgument` in the
spec) and `KeyError` (`NotFound`). -/
inductive Err where
  | invalidArgument
  | notFound
  deriving DecidableEq, Repr

/-! ### Insertion-ordered dictionaries (Python `dict`) -/

/-- `d[k]` lookup (returns the value of the first — unique — matching key). -/
def dlookup {β : Type} (k : String) : List (String × β) → Option β
  | [] => none
  | (k1, v) :: t => if k1 = k then some v else dlookup k t

/-- `d[k] = v`: replace the value in place if the key is present, otherwise
append the new binding at the end, as a Python dict does. -/
def dinsert {β : Type} (k : String) (v : β) : List (String × β) → List (String × β)
  | [] => [(k, v)]
  | (k1, v1) :: t => if k1 = k then (k, v) :: t else (k1, v1) :: dinsert k v t

/-- `del d[k]` / `d.pop(k, None)`: drop the binding of `k` (no-op if absent). -/
def derase {β : Type} (k : String) : List (String × β) → List (String × β)
  | [] => []
  | (k1, v1) :: t => if k1 = k then t else (k1, v1) :: derase k t

/-! ### The graph (`src/data_structures/graph.py`)

`Graph` is the `_adjacency_list` field: `{item: {neighbor: weight, ...}}`. -/

/-- One adjacency row: `{neighbor: weight, ...}`. -/
abbrev Adj := List (String × Int)

/-- The adjacency-list representation `{item: {neighbor: weight, ...}}`. -/
abbrev Graph := List (String × Adj)

/-- `self._adjacency_list[item]`, defaulting to the empty row for non-nodes
(the source only indexes rows of existing nodes). -/
def getAdj (g : Graph) (item : String) : Adj :=
  (dlookup item g).getD []

/-- `Graph.add_node`: no-op if present, else create an isolated node. -/
def add_node (g : Graph) (item : String) : Graph :=
  if (dlookup item g).isSome then g else g ++ [(item, [])]

/-- `Graph.has_node`. -/
def has_node (g : Graph) (item : String) : Bool :=
  (dlookup item g).isSome

/-- `Graph.has_edge`. -/
def has_edge (g : Graph) (item1 item2 : String) : Bool :=
  match dlookup item1 g with
  | none => false
  | some adj => (dlookup item2 adj).isSome

/-- `Graph.add_edge`: validate, ensure both nodes, then add the weight to
both directions (accumulating when the edge exists). -/
def add_edge (g : Graph) (item1 item2 : String) (weight : Int) : Except Err Graph :=
  if item1 = "" ∨ item2 = "" then .error .invalidArgument
  else if item1 = item2 then .error .invalidArgument
  else if weight ≤ 0 then .error .invalidArgument
  else
    let g1 := add_node (add_node g item1) item2
    if (dlookup item2 (getAdj g1 item1)).isSome then
      let w1 := (dlookup item2 (getAdj g1 item1)).getD 0
      let g2 := dinsert item1 (dinsert item2 (w1 + weight) (getAdj g1 item1)) g1
      let w2 := (dlookup item1 (getAdj g2 item2)).getD 0
      let g3 := dinsert item2 (dinsert item1 (w2 + weight) (getAdj g2 item2)) g2
      .ok g3
    else
      let g2 := dinsert item1 (dinsert item2 weight (getAdj g1 item1)) g1
      let g3 := dinsert item2 (dinsert item1 weight (getAdj g2 item2)) g2
      .ok g3

/-- `Graph.get_neighbors` (the returned row is a copy in the source; values
are immutable here). -/
def get_neighbors (g : Graph) (item : String) : Except Err Adj :=
  match dlookup item g with
  | none => .error .notFound
  | some adj => .ok adj

/-- `Graph.get_edge_weight`: 0 when the edge is absent. -/
def get_edge_weight (g : Graph) (item1 item2 : String) : Int :=
  if has_edge g item1 item2 then ((dlookup item2 (getAdj g item1)).getD 0) else 0

/-- `Graph.get_all_nodes`. -/
def get_all_nodes (g : Graph) : List String :=
  g.map Prod.fst

/-- `tuple(sorted([item1, item2]))`: the canonical unordered-pair key used by
`get_all_edges` to deduplicate. -/
def canonPair (a b : String) : String × String :=
  if a ≤ b then (a, b) else (b, a)

/-- The inner loop of `Graph.get_all_edges` over one adjacency row: emit the
entries whose canonical pair is unseen, threading the seen set. -/
def edgesRow (a : String) : Adj → List (String × String) →
    List (String × String × Int) × List (String × String)
  | [], seen => ([], seen)
  | (b, w) :: t, seen =>
    let e := canonPair a b
    if e ∈ seen then edgesRow a t seen
    else
      let r := edgesRow a t (e :: seen)
      ((a, b, w) :: r.1, r.2)

/-- The outer loop of `Graph.get_all_edges` over all rows. -/
def edgesAux : Graph → List (String × String) → List (String × String × Int)
  | [], _ => []
  | (a, adj) :: rest, seen =>
    let r := edgesRow a adj seen
    r.1 ++ edgesAux rest r.2

/-- `Graph.get_all_edges`: every undirected edge once, as `(item1, item2, weight)`. -/
def get_all_edges (g : Graph) : List (String × String × Int) :=
  edgesAux g []

/-- `Graph.remove_node`: remove the node from each neighbor's row, then drop
its own row (no-op if absent). -/
def remove_node (g : Graph) (item : String) : Graph :=
  match dlookup item g with
  | none => g
  | some adj =>
    let g1 := (adj.map Prod.fst).foldl
      (fun h n => if (dlookup n h).isSome then dinsert n (derase item (getAdj h n)) h else h) g
    derase item g1

/-- `Graph.remove_edge`: drop both directions when the edge exists (no-op
otherwise).  When `has_edge g item1 item2` holds but `item2` is not a node the
source would raise `KeyError`; that state is unreachable for graphs built
through the API (see `wf_reachable`), and the second deletion is then skipped. -/
def remove_edge (g : Graph) (item1 item2 : String) : Graph :=
  if has_edge g item1 item2 then
    let g1 := dinsert item1 (derase item2 (getAdj g item1)) g
    match dlookup item2 g1 with
    | none => g1
    | some adj2 => dinsert item2 (derase item1 adj2) g1
  else g

/-- `Graph.node_count`. -/
def node_count (g : Graph) : Nat :=
  g.length

/-- `Graph.edge_count`: half the total adjacency size. -/
def edge_count (g : Graph) : Nat :=
  (g.map (fun p => p.2.length)).sum / 2

/-- `Graph.degree`. -/
def degree (g : Graph) (item : String) : Except Err Nat :=
  match dlookup item g with
  | none => .error .notFound
  | some adj => .ok adj.length

/-- `Graph.is_empty`. -/
def is_empty (g : Graph) : Bool :=
  g.length = 0

/-! ### Dictionary lemmas -/

/-- The key list of an association list. -/
def keys {β : Type} (l : List (String × β)) : List String :=
  l.map Prod.fst

@[simp] theorem keys_nil {β : Type} : keys ([] : List (String × β)) = [] := rfl

@[simp] theorem keys_cons {β : Type} (p : String × β) (t : List (String × β)) :
    keys (p :: t) = p.1 :: keys t := rfl

@[simp] theorem keys_append {β : Type} (l r : List (String × β)) :
    keys (l ++ r) = keys l ++ keys r := by
  simp [keys]

theorem dlookup_isSome_iff {β : Type} (k : String) (l : List (String × β)) :
    (dlookup k l).isSome = true ↔ k ∈ keys l := by
  induction l with
  | nil => simp [dlookup]
  | cons p t ih =>
    obtain ⟨k1, v⟩ := p
    by_cases h : k1 = k <;> simp [dlookup, h, ih]
    exact fun hn => (h hn.symm).elim

theorem dlookup_eq_none_iff {β : Type} (k : String) (l : List (String × β)) :
    dlookup k l = none ↔ k ∉ keys l := by
  rw [← dlookup_isSome_iff]
  cases dlookup k l <;> simp

theorem mem_keys {β : Type} {k : String} {l : List (String × β)} :
    k ∈ keys l ↔ ∃ v, (k, v) ∈ l := by
  constructor
  · intro hm
    rcases List.mem_map.mp hm with ⟨⟨a, b⟩, hab, hfx⟩
    cases hfx
    exact ⟨b, hab⟩
  · rintro ⟨v, hv⟩
    exact List.mem_map.mpr ⟨(k, v), hv, rfl⟩

theorem dlookup_mem {β : Type} {k : String} {v : β} {l : List (String × β)}
    (h : dlookup k l = some v) : (k, v) ∈ l := by
  induction l with
  | nil => simp [dlookup] at h
  | cons p t ih =>
    obtain ⟨k1, v1⟩ := p
    by_cases hk : k1 = k
    · subst hk
      simp [dlookup] at h
      subst h; exact List.mem_cons_self _ _
    · simp [dlookup, hk] at h
      exact List.mem_cons_of_mem _ (ih h)

theorem mem_dlookup {β : Type} {k : String} {v : β} {l : List (String × β)}
    (hnd : (keys l).Nodup) (h : (k, v) ∈ l) : dlookup k l = some v := by
  induction l with
  | nil => simp at h
  | cons p t ih =>
    obtain ⟨k1, v1⟩ := p
    rw [keys_cons, List.nodup_cons] at hnd
    rcases List.mem_cons.mp h with h1 | h1
    · injection h1 with ha hb
      subst ha; subst hb
      simp [dlookup]
    · have hk : k1 ≠ k := by
        rintro rfl
        exact hnd.1 (mem_keys.mpr ⟨v, h1⟩)
      simp [dlookup, hk, ih hnd.2 h1]

theorem dlookup_append {β : Type} (k : String) (l r : List (String × β)) :
    dlookup k (l ++ r) =
      match dlookup k l with
      | some v => some v
      | none => dlookup k r := by
  induction l with
  | nil => simp [dlookup]
  | cons p t ih =>
    obtain ⟨k1, v1⟩ := p
    by_cases h : k1 = k <;> simp [dlookup, h, ih]

@[simp] theorem dlookup_dinsert_self {β : Type} (k : String) (v : β) (l : List (String × β)) :
    dlookup k (dinsert k v l) = some v := by
  induction l with
  | nil => simp [dinsert, dlookup]
  | cons p t ih =>
    obtain ⟨k1, v1⟩ := p
    by_cases h : k1 = k <;> simp [dinsert, h, dlookup, ih]

theorem dlookup_dinsert_ne {β : Type} {k k2 : String} (v : β) (l : List (String × β))
    (h : k2 ≠ k) : dlookup k2 (dinsert k v l) = dlookup k2 l := by
  have hk : k ≠ k2 := Ne.symm h
  induction l with
  | nil => simp [dinsert, dlookup, hk]
  | cons p t ih =>
    obtain ⟨k1, v1⟩ := p
    by_cases h1 : k1 = k
    · subst h1
      simp [dinsert, dlookup, hk]
    · simp [dinsert, h1, dlookup, ih]

theorem keys_dinsert {β : Type} (k : String) (v : β) (l : List (String × β)) :
    keys (dinsert k v l) = if k ∈ keys l then keys l else keys l ++ [k] := by
  induction l with
  | nil => simp [dinsert]
  | cons p t ih =>
    obtain ⟨k1, v1⟩ := p
    by_cases h : k1 = k
    · subst h; simp [dinsert]
    · have hk : k ≠ k1 := Ne.symm h
      simp only [dinsert, if_neg h, keys_cons, ih]
      by_cases hm : k ∈ keys t
      · simp [hm, hk]
      · simp [hm, hk]

theorem mem_keys_dinsert {β : Type} (k2 k : String) (v : β) (l : List (String × β)) :
    k2 ∈ keys (dinsert k v l) ↔ k2 ∈ keys l ∨ k2 = k := by
  rw [keys_dinsert]
  split <;> rename_i h
  · constructor
    · exact Or.inl
    · rintro (h1 | rfl)
      · exact h1
      · exact h
  · simp

theorem nodup_keys_dinsert {β : Type} (k : String) (v : β) (l : List (String × β))
    (h : (keys l).Nodup) : (keys (dinsert k v l)).Nodup := by
  rw [keys_dinsert]
  split <;> rename_i hmem
  · exact h
  · simp [List.nodup_append, h, hmem]

theorem dlookup_derase_ne {β : Type} {k k2 : String} (l : List (String × β))
    (h : k2 ≠ k) : dlookup k2 (derase k l) = dlookup k2 l := by
  induction l with
  | nil => simp [derase]
  | cons p t ih =>
    obtain ⟨k1, v1⟩ := p
    by_cases h1 : k1 = k
    · subst h1
      have hk : k1 ≠ k2 := Ne.symm h
      simp [derase, dlookup, hk]
    · simp [derase, h1, dlookup, ih]

theorem keys_derase_subset {β : Type} (k : String) (l : List (String × β)) :
    ∀ k2, k2 ∈ keys (derase k l) → k2 ∈ keys l := by
  induction l with
  | nil => simp [derase]
  | cons p t ih =>
    obtain ⟨k1, v1⟩ := p
    intro k2
    by_cases h1 : k1 = k <;> simp [derase, h1]
    · exact Or.inr
    · rintro (rfl | h2)
      · exact Or.inl rfl
      · exact Or.inr (ih k2 h2)

theorem nodup_keys_derase {β : Type} (k : String) (l : List (String × β))
    (h : (keys l).Nodup) : (keys (derase k l)).Nodup := by
  induction l with
  | nil => simp [derase]
  | cons p t ih =>
    obtain ⟨k1, v1⟩ := p
    rw [keys_cons, List.nodup_cons] at h
    by_cases h1 : k1 = k
    · simp only [derase, if_pos h1]
      exact h.2
    · simp only [derase, if_neg h1, keys_cons, List.nodup_cons]
      exact ⟨fun hm => h.1 (keys_derase_subset k t k1 hm), ih h.2⟩

theorem dlookup_derase_self {β : Type} (k : String) (l : List (String × β))
    (h : (keys l).Nodup) : dlookup k (derase k l) = none := by
  induction l with
  | nil => simp [derase, dlookup]
  | cons p t ih =>
    obtain ⟨k1, v1⟩ := p
    rw [keys_cons, List.nodup_cons] at h
    by_cases h1 : k1 = k
    · subst h1
      simp only [derase, if_pos rfl]
      exact (dlookup_eq_none_iff k1 t).mpr h.1
    · simp [derase, h1, dlookup, ih h.2]

/-! ### Well-formedness of graphs

Every graph reachable through the public API satisfies `Wf` (proved below):
unique keys, symmetric adjacency, no self-loops, neighbors are nodes, and
strictly positive stored weights. -/

/-- Invariants of the adjacency representation maintained by the API. -/
structure Wf (g : Graph) : Prop where
  nodupOuter : (keys g).Nodup
  nodupInner : ∀ x, (keys (getAdj g x)).Nodup
  sym : ∀ a b, dlookup b (getAdj g a) = dlookup a (getAdj g b)
  noself : ∀ a, dlookup a (getAdj g a) = none
  closed : ∀ a b, (dlookup b (getAdj g a)).isSome = true → has_node g b = true
  pos : ∀ a b w, dlookup b (getAdj g a) = some w → 0 < w

theorem wf_empty : Wf [] := by
  refine ⟨by simp [keys], ?_, ?_, ?_, ?_, ?_⟩ <;>
    simp [getAdj, dlookup, keys]

theorem has_edge_eq (g : Graph) (a b : String) :
    has_edge g a b = (dlookup b (getAdj g a)).isSome := by
  unfold has_edge getAdj
  cases dlookup a g <;> simp [dlookup]

theorem get_edge_weight_eq (g : Graph) (a b : String) :
    get_edge_weight g a b = (dlookup b (getAdj g a)).getD 0 := by
  unfold get_edge_weight
  rw [has_edge_eq]
  cases h : dlookup b (getAdj g a) <;> simp

theorem has_node_iff_mem_keys (g : Graph) (x : String) :
    has_node g x = true ↔ x ∈ keys g := by
  unfold has_node
  exact dlookup_isSome_iff x g

theorem getAdj_eq_nil_of_not_node {g : Graph} {x : String}
    (h : ¬ has_node g x = true) : getAdj g x = [] := by
  unfold has_node at h
  unfold getAdj
  cases hx : dlookup x g
  · rfl
  · rw [hx] at h; simp at h

/-- Rows of a well-formed graph, read via `dlookup`, come from `getAdj`. -/
theorem getAdj_of_mem {g : Graph} (hnd : (keys g).Nodup) {x : String} {adj : Adj}
    (h : (x, adj) ∈ g) : getAdj g x = adj := by
  unfold getAdj
  rw [mem_dlookup hnd h]
  rfl

@[simp] theorem getAdj_dinsert (k : String) (row : Adj) (g : Graph) (x : String) :
    getAdj (dinsert k row g) x = if x = k then row else getAdj g x := by
  by_cases h : x = k
  · subst h
    unfold getAdj
    simp
  · unfold getAdj
    rw [dlookup_dinsert_ne _ _ h]
    simp [h]

@[simp] theorem getAdj_add_node (g : Graph) (i x : String) :
    getAdj (add_node g i) x = getAdj g x := by
  unfold add_node
  split
  · rfl
  · rename_i h
    unfold getAdj
    rw [dlookup_append]
    cases hx : dlookup x g
    · simp only []
      by_cases hix : i = x
      · subst hix
        simp [dlookup]
      · simp [dlookup, hix]
    · simp

theorem keys_add_node (g : Graph) (i : String) :
    keys (add_node g i) = if has_node g i then keys g else keys g ++ [i] := by
  unfold add_node has_node
  split <;> rename_i h <;> simp [h, keys]

theorem has_node_add_node (g : Graph) (i x : String) :
    has_node (add_node g i) x = true ↔ has_node g x = true ∨ x = i := by
  rw [has_node_iff_mem_keys, keys_add_node]
  split <;> rename_i h
  · rw [← has_node_iff_mem_keys]
    constructor
    · exact Or.inl
    · rintro (h1 | rfl)
      · exact h1
      · exact h
  · simp only [List.mem_append, List.mem_singleton]
    rw [← has_node_iff_mem_keys]

theorem nodup_keys_add_node {g : Graph} (hnd : (keys g).Nodup) (i : String) :
    (keys (add_node g i)).Nodup := by
  rw [keys_add_node]
  split <;> rename_i h
  · exact hnd
  · rw [has_node_iff_mem_keys] at h
    simp [List.nodup_append, hnd]
    simpa using h

theorem wf_add_node {g : Graph} (wf : Wf g) (i : String) : Wf (add_node g i) := by
  refine ⟨nodup_keys_add_node wf.nodupOuter i, ?_, ?_, ?_, ?_, ?_⟩
  · intro x; rw [getAdj_add_node]; exact wf.nodupInner x
  · intro a b; rw [getAdj_add_node, getAdj_add_node]; exact wf.sym a b
  · intro a; rw [getAdj_add_node]; exact wf.noself a
  · intro a b h
    rw [getAdj_add_node] at h
    rw [has_node_add_node]
    exact Or.inl (wf.closed a b h)
  · intro a b w h
    rw [getAdj_add_node] at h
    exact wf.pos a b w h

/-- Master lemma for a successful `add_edge`: result, keys, and the full row
characterization.  The hypothesis `hsym` is the symmetry instance of `Wf` at
the touched pair. -/
theorem add_edge_ok {g : Graph} {a b : String} (w : Int)
    (ha : a ≠ "") (hb : b ≠ "") (hab : a ≠ b) (hw : 0 < w)
    (hsym : dlookup b (getAdj g a) = dlookup a (getAdj g b)) :
    ∃ g3, add_edge g a b w = .ok g3 ∧
      keys g3 = keys (add_node (add_node g a) b) ∧
      ∀ x, getAdj g3 x =
        if x = a then dinsert b ((dlookup b (getAdj g a)).getD 0 + w) (getAdj g a)
        else if x = b then dinsert a ((dlookup b (getAdj g a)).getD 0 + w) (getAdj g b)
        else getAdj g x := by
  have hba : b ≠ a := Ne.symm hab
  have hna : has_node (add_node (add_node g a) b) a = true :=
    (has_node_add_node _ _ _).mpr
      (Or.inl ((has_node_add_node _ _ _).mpr (Or.inr rfl)))
  have hnb : has_node (add_node (add_node g a) b) b = true :=
    (has_node_add_node _ _ _).mpr (Or.inr rfl)
  unfold add_edge
  rw [if_neg (show ¬ (a = "" ∨ b = "") by simp [ha, hb]),
    if_neg hab, if_neg (not_le.mpr hw)]
  simp only [getAdj_add_node, getAdj_dinsert, if_neg hba, Option.getD_some]
  cases hOld : dlookup b (getAdj g a) with
  | some w1 =>
    rw [← hsym, hOld]
    simp only [Option.isSome_some, if_true, Option.getD_some, if_pos rfl]
    refine ⟨_, rfl, ?_, ?_⟩
    · rw [keys_dinsert,
        if_pos ((has_node_iff_mem_keys _ _).mp
          ((has_node_iff_mem_keys _ _).mpr
            ((mem_keys_dinsert b a _ _).mpr
              (Or.inl ((has_node_iff_mem_keys _ _).mp hnb))))),
        keys_dinsert, if_pos ((has_node_iff_mem_keys _ _).mp hna)]
    · intro x
      simp only [getAdj_dinsert, getAdj_add_node]
      by_cases hxb : x = b
      · subst hxb
        simp [hba]
      · by_cases hxa : x = a
        · subst hxa
          simp [hab, hba]
        · simp [hxa, hxb]
  | none =>
    rw [← hsym, hOld]
    simp only [Option.isSome_none, Bool.false_eq_true, if_false, Option.getD_none]
    refine ⟨_, rfl, ?_, ?_⟩
    · rw [keys_dinsert,
        if_pos ((has_node_iff_mem_keys _ _).mp
          ((has_node_iff_mem_keys _ _).mpr
            ((mem_keys_dinsert b a _ _).mpr
              (Or.inl ((has_node_iff_mem_keys _ _).mp hnb))))),
        keys_dinsert, if_pos ((has_node_iff_mem_keys _ _).mp hna)]
    · intro x
      simp only [getAdj_dinsert, getAdj_add_node]
      by_cases hxb : x = b
      · subst hxb
        simp [hba, zero_add]
      · by_cases hxa : x = a
        · subst hxa
          simp [hab, hba, zero_add]
        · simp [hxa, hxb]

/-- Behavioral corollary of `add_edge_ok` for well-formed graphs:
well-formedness is preserved and nodes, edges and weights change exactly as
the contract states. -/
theorem add_edge_spec {g : Graph} (wf : Wf g) {a b : String} (w : Int)
    (ha : a ≠ "") (hb : b ≠ "") (hab : a ≠ b) (hw : 0 < w) :
    ∃ g3, add_edge g a b w = .ok g3 ∧ Wf g3 ∧
      (∀ x, has_node g3 x = true ↔ has_node g x = true ∨ x = a ∨ x = b) ∧
      (∀ x y, get_edge_weight g3 x y =
        get_edge_weight g x y + (if (x = a ∧ y = b) ∨ (x = b ∧ y = a) then w else 0)) ∧
      (∀ x y, has_edge g3 x y = true ↔
        has_edge g x y = true ∨ (x = a ∧ y = b) ∨ (x = b ∧ y = a)) := by
  have hba : b ≠ a := Ne.symm hab
  obtain ⟨g3, heq, hkeys, hrow⟩ := add_edge_ok w ha hb hab hw (wf.sym a b)
  have hold0 : 0 ≤ (dlookup b (getAdj g a)).getD 0 := by
    cases h : dlookup b (getAdj g a) with
    | none => simp
    | some w1 => simpa using le_of_lt (wf.pos a b w1 h)
  have hnode : ∀ x, has_node g3 x = true ↔ has_node g x = true ∨ x = a ∨ x = b := by
    intro x
    rw [has_node_iff_mem_keys, hkeys, ← has_node_iff_mem_keys,
      has_node_add_node, has_node_add_node]
    tauto
  refine ⟨g3, heq, ?_, hnode, ?_, ?_⟩
  · refine ⟨?_, ?_, ?_, ?_, ?_, ?_⟩
    · rw [hkeys]
      exact nodup_keys_add_node (nodup_keys_add_node wf.nodupOuter a) b
    · intro x
      rw [hrow x]
      by_cases hxa : x = a
      · simp only [if_pos hxa]
        exact nodup_keys_dinsert _ _ _ (wf.nodupInner a)
      · by_cases hxb : x = b
        · simp only [if_neg hxa, if_pos hxb]
          exact nodup_keys_dinsert _ _ _ (wf.nodupInner b)
        · simp only [if_neg hxa, if_neg hxb]
          exact wf.nodupInner x
    · intro x y
      rw [hrow x, hrow y]
      by_cases hxa : x = a
      · rw [if_pos hxa]
        by_cases hya : y = a
        · rw [if_pos hya, hxa, hya]
        · rw [if_neg hya]
          by_cases hyb : y = b
          · rw [if_pos hyb, hxa, hyb, dlookup_dinsert_self, dlookup_dinsert_self]
          · rw [if_neg hyb, dlookup_dinsert_ne _ _ hyb, hxa]
            exact wf.sym a y
      · rw [if_neg hxa]
        by_cases hxb : x = b
        · rw [if_pos hxb]
          by_cases hya : y = a
          · rw [if_pos hya, hxb, hya, dlookup_dinsert_self, dlookup_dinsert_self]
          · rw [if_neg hya]
            by_cases hyb : y = b
            · rw [if_pos hyb, hxb, hyb]
            · rw [if_neg hyb, dlookup_dinsert_ne _ _ hya, hxb]
              exact wf.sym b y
        · rw [if_neg hxb]
          by_cases hya : y = a
          · rw [if_pos hya, dlookup_dinsert_ne _ _ hxb, hya]
            exact wf.sym x a
          · rw [if_neg hya]
            by_cases hyb : y = b
            · rw [if_pos hyb, dlookup_dinsert_ne _ _ hxa, hyb]
              exact wf.sym x b
            · rw [if_neg hyb]
              exact wf.sym x y
    · intro x
      rw [hrow x]
      by_cases hxa : x = a
      · subst hxa
        rw [if_pos rfl, dlookup_dinsert_ne _ _ hab]
        exact wf.noself x
      · by_cases hxb : x = b
        · subst hxb
          rw [if_neg hxa, if_pos rfl, dlookup_dinsert_ne _ _ hba]
          exact wf.noself x
        · rw [if_neg hxa, if_neg hxb]
          exact wf.noself x
    · intro x y hxy
      rw [hrow x] at hxy
      rw [hnode y]
      by_cases hxa : x = a
      · rw [if_pos hxa] at hxy
        by_cases hyb : y = b
        · exact Or.inr (Or.inr hyb)
        · rw [dlookup_dinsert_ne _ _ hyb] at hxy
          exact Or.inl (wf.closed a y hxy)
      · by_cases hxb : x = b
        · rw [if_neg hxa, if_pos hxb] at hxy
          by_cases hya : y = a
          · exact Or.inr (Or.inl hya)
          · rw [dlookup_dinsert_ne _ _ hya] at hxy
            exact Or.inl (wf.closed b y hxy)
        · rw [if_neg hxa, if_neg hxb] at hxy
          exact Or.inl (wf.closed x y hxy)
    · intro x y v hxy
      rw [hrow x] at hxy
      by_cases hxa : x = a
      · rw [if_pos hxa] at hxy
        by_cases hyb : y = b
        · subst hyb
          rw [dlookup_dinsert_self] at hxy
          cases hxy
          exact add_pos_of_nonneg_of_pos hold0 hw
        · rw [dlookup_dinsert_ne _ _ hyb] at hxy
          exact wf.pos a y v hxy
      · by_cases hxb : x = b
        · rw [if_neg hxa, if_pos hxb] at hxy
          by_cases hya : y = a
          · subst hya
            rw [dlookup_dinsert_self] at hxy
            cases hxy
            exact add_pos_of_nonneg_of_pos hold0 hw
          · rw [dlookup_dinsert_ne _ _ hya] at hxy
            exact wf.pos b y v hxy
        · rw [if_neg hxa, if_neg hxb] at hxy
          exact wf.pos x y v hxy
  · intro x y
    rw [get_edge_weight_eq, get_edge_weight_eq, hrow x]
    by_cases hxa : x = a
    · subst hxa
      rw [if_pos rfl]
      by_cases hyb : y = b
      · subst hyb
        rw [dlookup_dinsert_self]
        simp
      · rw [dlookup_dinsert_ne _ _ hyb]
        simp [hyb, fun h : x = b => hab h]
    · by_cases hxb : x = b
      · subst hxb
        rw [if_neg hxa, if_pos rfl]
        by_cases hya : y = a
        · subst hya
          rw [dlookup_dinsert_self]
          rw [← wf.sym y x]
          simp [hba]
        · rw [dlookup_dinsert_ne _ _ hya]
          simp [hya, hxa]
      · rw [if_neg hxa, if_neg hxb]
        simp [hxa, hxb]
  · intro x y
    rw [has_edge_eq, has_edge_eq, hrow x]
    by_cases hxa : x = a
    · subst hxa
      rw [if_pos rfl]
      by_cases hyb : y = b
      · subst hyb
        rw [dlookup_dinsert_self]
        simp
      · rw [dlookup_dinsert_ne _ _ hyb]
        simp [hyb, fun h : x = b => hab h]
    · by_cases hxb : x = b
      · subst hxb
        rw [if_neg hxa, if_pos rfl]
        by_cases hya : y = a
        · subst hya
          rw [dlookup_dinsert_self]
          simp [hba, hxa]
        · rw [dlookup_dinsert_ne _ _ hya]
          simp [hya, hxa]
      · rw [if_neg hxa, if_neg hxb]
        simp [hxa, hxb]

/-- On valid arguments `add_edge` succeeds, for any graph. -/
theorem add_edge_ok_of_valid (g : Graph) {a b : String} {w : Int}
    (ha : a ≠ "") (hb : b ≠ "") (hab : a ≠ b) (hw : ¬ w ≤ 0) :
    ∃ g2, add_edge g a b w = .ok g2 := by
  unfold add_edge
  rw [if_neg (show ¬ (a = "" ∨ b = "") by simp [ha, hb]), if_neg hab, if_neg hw]
  dsimp only
  split
  · exact ⟨_, rfl⟩
  · exact ⟨_, rfl⟩

/-- `add_edge` raises `InvalidArgument` exactly on the contract violations. -/
theorem add_edge_error_iff (g : Graph) (a b : String) (w : Int) :
    add_edge g a b w = .error .invalidArgument ↔
      a = "" ∨ b = "" ∨ a = b ∨ w ≤ 0 := by
  constructor
  · intro h
    by_contra hcon
    push_neg at hcon
    obtain ⟨ha, hb, hab, hw⟩ := hcon
    obtain ⟨g2, hg2⟩ := add_edge_ok_of_valid g ha hb hab (not_le.mpr hw)
    rw [h] at hg2
    exact Except.noConfusion hg2
  · intro h
    by_cases ha : a = ""
    · simp [add_edge, ha]
    · by_cases hb : b = ""
      · simp [add_edge, ha, hb]
      · by_cases hab : a = b
        · simp [add_edge, ha, hb, hab]
        · have hw : w ≤ 0 := by tauto
          simp [add_edge, ha, hb, hab, hw]

/-- `add_edge` never raises `NotFound`. -/
theorem add_edge_error_invalid {g : Graph} {a b : String} {w : Int} {e : Err}
    (h : add_edge g a b w = .error e) : e = .invalidArgument := by
  by_cases hc : a = "" ∨ b = "" ∨ a = b ∨ w ≤ 0
  · have := (add_edge_error_iff g a b w).mpr hc
    rw [h] at this
    exact (Except.error.injEq _ _).mp this
  · push_neg at hc
    obtain ⟨ha, hb, hab, hw⟩ := hc
    obtain ⟨g3, hg3⟩ := add_edge_ok_of_valid g ha hb hab (not_le.mpr hw)
    rw [h] at hg3
    exact Except.noConfusion hg3

theorem derase_of_not_mem {β : Type} {k : String} {l : List (String × β)}
    (h : k ∉ keys l) : derase k l = l := by
  induction l with
  | nil => rfl
  | cons p t ih =>
    obtain ⟨k1, v1⟩ := p
    rw [keys_cons, List.mem_cons] at h
    push_neg at h
    rw [derase, if_neg (fun he => h.1 he.symm), ih h.2]

theorem mem_keys_derase {β : Type} {k2 k : String} {l : List (String × β)}
    (hnd : (keys l).Nodup) : k2 ∈ keys (derase k l) ↔ k2 ∈ keys l ∧ k2 ≠ k := by
  constructor
  · intro h
    refine ⟨keys_derase_subset k l k2 h, ?_⟩
    rintro rfl
    rw [← dlookup_isSome_iff] at h
    rw [dlookup_derase_self _ l hnd] at h
    simp at h
  · rintro ⟨h1, h2⟩
    rw [← dlookup_isSome_iff] at h1 ⊢
    rwa [dlookup_derase_ne _ h2]

/-- Two graphs with the same keys agree on `has_node`. -/
theorem has_node_eq_of_keys_eq {g1 g2 : Graph} (h : keys g1 = keys g2) (x : String) :
    has_node g1 x = has_node g2 x := by
  rw [Bool.eq_iff_iff, has_node_iff_mem_keys, has_node_iff_mem_keys, h]

/-! ### `remove_node` and `remove_edge` -/

/-- The loop body of `remove_node` (definitionally the lambda in the source:
`self._adjacency_list[neighbor].pop(item, None)` guarded by membership). -/
def rnStep (i : String) (h : Graph) (n : String) : Graph :=
  if (dlookup n h).isSome then dinsert n (derase i (getAdj h n)) h else h

theorem remove_node_eq_fold (g : Graph) (i : String) :
    remove_node g i =
      match dlookup i g with
      | none => g
      | some adj => derase i ((adj.map Prod.fst).foldl (rnStep i) g) := rfl

theorem rnStep_keys (i : String) (h0 : Graph) (n : String) :
    keys (rnStep i h0 n) = keys h0 := by
  unfold rnStep
  split <;> rename_i hmem
  · rw [keys_dinsert, if_pos ((dlookup_isSome_iff n h0).mp hmem)]
  · rfl

theorem rnStep_row (i : String) (h0 : Graph) (n x : String) :
    getAdj (rnStep i h0 n) x =
      if x = n ∧ has_node h0 x = true then derase i (getAdj h0 x) else getAdj h0 x := by
  unfold rnStep
  split <;> rename_i hmem
  · rw [getAdj_dinsert]
    by_cases hx : x = n
    · subst hx
      rw [if_pos rfl, if_pos ⟨rfl, hmem⟩]
    · rw [if_neg hx, if_neg (by tauto)]
  · by_cases hx : x = n
    · subst hx
      rw [if_neg ?_]
      rintro ⟨-, hnode⟩
      exact absurd hnode (by simpa [has_node] using hmem)
    · rw [if_neg (by tauto)]

/-- The neighbor-cleanup loop of `remove_node`: keys and row characterization. -/
theorem remove_node_fold_char (i : String) :
    ∀ (ns : List String) (h0 : Graph), ns.Nodup →
      keys (ns.foldl (rnStep i) h0) = keys h0 ∧
      ∀ x, getAdj (ns.foldl (rnStep i) h0) x =
        if x ∈ ns ∧ has_node h0 x = true then derase i (getAdj h0 x) else getAdj h0 x := by
  intro ns
  induction ns with
  | nil =>
    intro h0 _
    refine ⟨rfl, ?_⟩
    intro x
    simp
  | cons n t ih =>
    intro h0 hnd
    rw [List.nodup_cons] at hnd
    rw [List.foldl_cons]
    obtain ⟨ihk, ihr⟩ := ih (rnStep i h0 n) hnd.2
    have hkeys1 := rnStep_keys i h0 n
    have hnodes : ∀ x, has_node (rnStep i h0 n) x = has_node h0 x :=
      has_node_eq_of_keys_eq hkeys1
    refine ⟨by rw [ihk, hkeys1], ?_⟩
    intro x
    rw [ihr x, hnodes x, rnStep_row i h0 n x]
    by_cases hxt : x ∈ t
    · have hxn : x ≠ n := fun he => hnd.1 (he ▸ hxt)
      rw [if_neg (show ¬ (x = n ∧ has_node h0 x = true) by tauto)]
      by_cases hnode : has_node h0 x = true
      · rw [if_pos ⟨hxt, hnode⟩, if_pos ⟨List.mem_cons_of_mem _ hxt, hnode⟩]
      · rw [if_neg (show ¬ (x ∈ t ∧ has_node h0 x = true) by tauto),
          if_neg (show ¬ (x ∈ n :: t ∧ has_node h0 x = true) by tauto)]
    · rw [if_neg (show ¬ (x ∈ t ∧ has_node h0 x = true) by tauto)]
      by_cases hxn : x = n
      · subst hxn
        by_cases hnode : has_node h0 x = true
        · rw [if_pos ⟨rfl, hnode⟩, if_pos ⟨List.mem_cons_self _ _, hnode⟩]
        · rw [if_neg (show ¬ (x = x ∧ has_node h0 x = true) by tauto),
            if_neg (show ¬ (x ∈ x :: t ∧ has_node h0 x = true) by tauto)]
      · rw [if_neg (show ¬ (x = n ∧ has_node h0 x = true) by tauto), if_neg ?_]
        rintro ⟨hmem, -⟩
        rcases List.mem_cons.mp hmem with h | h
        · exact hxn h
        · exact hxt h

/-- Full behavioral characterization of `remove_node` on well-formed graphs. -/
theorem remove_node_spec {g : Graph} (wf : Wf g) (i : String) :
    (∀ x, getAdj (remove_node g i) x = if x = i then [] else derase i (getAdj g x)) ∧
    (∀ x, has_node (remove_node g i) x = true ↔ has_node g x = true ∧ x ≠ i) := by
  rw [remove_node_eq_fold]
  cases hg : dlookup i g with
  | none =>
    have hni : ¬ has_node g i = true := by simp [has_node, hg]
    constructor
    · intro x
      by_cases hx : x = i
      · subst hx
        rw [if_pos rfl]
        exact getAdj_eq_nil_of_not_node hni
      · rw [if_neg hx, derase_of_not_mem]
        intro hmem
        rw [← dlookup_isSome_iff] at hmem
        exact hni (wf.closed x i hmem)
    · intro x
      constructor
      · intro h
        refine ⟨h, ?_⟩
        rintro rfl
        exact hni h
      · exact fun h => h.1
  | some adj =>
    have hadj : getAdj g i = adj := by unfold getAdj; rw [hg]; rfl
    have hnd : (adj.map Prod.fst).Nodup := by
      have h2 := wf.nodupInner i
      rwa [hadj] at h2
    obtain ⟨hkeys, hrows⟩ := remove_node_fold_char i (adj.map Prod.fst) g hnd
    have hkeysnd : (keys ((adj.map Prod.fst).foldl (rnStep i) g)).Nodup := by
      rw [hkeys]; exact wf.nodupOuter
    constructor
    · intro x
      by_cases hx : x = i
      · subst hx
        rw [if_pos rfl]
        unfold getAdj
        rw [dlookup_derase_self _ _ hkeysnd]
        rfl
      · rw [if_neg hx]
        have hstep : getAdj (derase i ((adj.map Prod.fst).foldl (rnStep i) g)) x =
            getAdj ((adj.map Prod.fst).foldl (rnStep i) g) x := by
          unfold getAdj
          rw [dlookup_derase_ne _ hx]
        rw [hstep, hrows x]
        by_cases hcond : x ∈ adj.map Prod.fst ∧ has_node g x = true
        · rw [if_pos hcond]
        · rw [if_neg hcond, derase_of_not_mem]
          intro hmem
          rw [← dlookup_isSome_iff] at hmem
          have hxnode : has_node g x = true := by
            by_contra hxn
            rw [getAdj_eq_nil_of_not_node hxn] at hmem
            simp [dlookup] at hmem
          have hmem2 : (dlookup x (getAdj g i)).isSome = true := by
            rw [← wf.sym x i]
            exact hmem
          rw [hadj, dlookup_isSome_iff] at hmem2
          exact hcond ⟨hmem2, hxnode⟩
    · intro x
      have hgoal : has_node (derase i ((adj.map Prod.fst).foldl (rnStep i) g)) x = true ↔
          has_node g x = true ∧ x ≠ i := by
        rw [has_node_iff_mem_keys, mem_keys_derase hkeysnd, hkeys, ← has_node_iff_mem_keys]
      exact hgoal

/-- `remove_node` preserves well-formedness. -/
theorem wf_remove_node {g : Graph} (wf : Wf g) (i : String) : Wf (remove_node g i) := by
  obtain ⟨hrow, hnode⟩ := remove_node_spec wf i
  have hkeysnd : (keys (remove_node g i)).Nodup := by
    rw [remove_node_eq_fold]
    cases hg : dlookup i g with
    | none => exact wf.nodupOuter
    | some adj =>
      refine nodup_keys_derase _ _ ?_
      have hnd : (adj.map Prod.fst).Nodup := by
        have h2 := wf.nodupInner i
        unfold getAdj at h2
        rw [hg] at h2
        exact h2
      obtain ⟨hkeys, -⟩ := remove_node_fold_char i (adj.map Prod.fst) g hnd
      rw [hkeys]
      exact wf.nodupOuter
  refine ⟨hkeysnd, ?_, ?_, ?_, ?_, ?_⟩
  · intro x
    rw [hrow x]
    by_cases hx : x = i
    · rw [if_pos hx]; exact List.nodup_nil
    · rw [if_neg hx]
      exact nodup_keys_derase _ _ (wf.nodupInner x)
  · intro a b
    rw [hrow a, hrow b]
    by_cases hai : a = i
    · rw [if_pos hai]
      by_cases hbi : b = i
      · rw [if_pos hbi, hai, hbi]
      · rw [if_neg hbi, hai, dlookup_derase_self _ _ (wf.nodupInner b)]
        rfl
    · rw [if_neg hai]
      by_cases hbi : b = i
      · rw [if_pos hbi, hbi, dlookup_derase_self _ _ (wf.nodupInner a)]
        rfl
      · rw [if_neg hbi, dlookup_derase_ne _ hbi, dlookup_derase_ne _ hai]
        exact wf.sym a b
  · intro a
    rw [hrow a]
    by_cases hai : a = i
    · rw [if_pos hai]; rfl
    · rw [if_neg hai, dlookup_derase_ne _ hai]
      exact wf.noself a
  · intro a b hab
    rw [hrow a] at hab
    by_cases hai : a = i
    · rw [if_pos hai] at hab
      simp [dlookup] at hab
    · rw [if_neg hai] at hab
      by_cases hbi : b = i
      · subst hbi
        rw [dlookup_derase_self _ _ (wf.nodupInner a)] at hab
        simp at hab
      · rw [dlookup_derase_ne _ hbi] at hab
        rw [hnode b]
        exact ⟨wf.closed a b hab, hbi⟩
  · intro a b w hab
    rw [hrow a] at hab
    by_cases hai : a = i
    · rw [if_pos hai] at hab
      simp [dlookup] at hab
    · rw [if_neg hai] at hab
      by_cases hbi : b = i
      · subst hbi
        rw [dlookup_derase_self _ _ (wf.nodupInner a)] at hab
        exact Option.noConfusion hab
      · rw [dlookup_derase_ne _ hbi] at hab
        exact wf.pos a b w hab

/-- For a node, `dlookup` returns its row. -/
theorem dlookup_eq_getAdj {g : Graph} {x : String} (h : has_node g x = true) :
    dlookup x g = some (getAdj g x) := by
  unfold has_node at h
  cases hx : dlookup x g with
  | none => rw [hx] at h; simp at h
  | some v => unfold getAdj; rw [hx]; rfl

/-- When the edge exists, `remove_edge` deletes both directions. -/
theorem remove_edge_eq {g : Graph} (wf : Wf g) {a b : String}
    (hedge : has_edge g a b = true) :
    remove_edge g a b =
      dinsert b (derase a (getAdj g b)) (dinsert a (derase b (getAdj g a)) g) := by
  have hsome : (dlookup b (getAdj g a)).isSome = true := by
    rw [← has_edge_eq]; exact hedge
  have hab : a ≠ b := by
    rintro rfl
    rw [wf.noself a] at hsome
    simp at hsome
  have hbnode : has_node g b = true := wf.closed a b hsome
  unfold remove_edge
  rw [if_pos hedge]
  dsimp only
  rw [dlookup_dinsert_ne _ _ (Ne.symm hab), dlookup_eq_getAdj hbnode]

/-- `remove_edge` preserves well-formedness. -/
theorem wf_remove_edge {g : Graph} (wf : Wf g) (a b : String) : Wf (remove_edge g a b) := by
  by_cases hedge : has_edge g a b = true
  · have hsome : (dlookup b (getAdj g a)).isSome = true := by
      rw [← has_edge_eq]; exact hedge
    have hab : a ≠ b := by
      rintro rfl
      rw [wf.noself a] at hsome
      simp at hsome
    have hba : b ≠ a := Ne.symm hab
    have hbnode : has_node g b = true := wf.closed a b hsome
    have hanode : has_node g a = true := by
      by_contra hna
      rw [getAdj_eq_nil_of_not_node hna] at hsome
      simp [dlookup] at hsome
    rw [remove_edge_eq wf hedge]
    have hkeys : keys (dinsert b (derase a (getAdj g b))
        (dinsert a (derase b (getAdj g a)) g)) = keys g := by
      rw [keys_dinsert, if_pos, keys_dinsert, if_pos ((has_node_iff_mem_keys g a).mp hanode)]
      rw [keys_dinsert, if_pos ((has_node_iff_mem_keys g a).mp hanode)]
      exact (has_node_iff_mem_keys g b).mp hbnode
    have hrow : ∀ x, getAdj (dinsert b (derase a (getAdj g b))
        (dinsert a (derase b (getAdj g a)) g)) x =
        if x = b then derase a (getAdj g b)
        else if x = a then derase b (getAdj g a) else getAdj g x := by
      intro x
      rw [getAdj_dinsert, getAdj_dinsert]
    have hnode : ∀ x, has_node (dinsert b (derase a (getAdj g b))
        (dinsert a (derase b (getAdj g a)) g)) x = has_node g x :=
      has_node_eq_of_keys_eq hkeys
    refine ⟨by rw [hkeys]; exact wf.nodupOuter, ?_, ?_, ?_, ?_, ?_⟩
    · intro x
      rw [hrow x]
      by_cases hxb : x = b
      · rw [if_pos hxb]; exact nodup_keys_derase _ _ (wf.nodupInner b)
      · rw [if_neg hxb]
        by_cases hxa : x = a
        · rw [if_pos hxa]; exact nodup_keys_derase _ _ (wf.nodupInner a)
        · rw [if_neg hxa]; exact wf.nodupInner x
    · intro x y
      rw [hrow x, hrow y]
      by_cases hxb : x = b
      · rw [if_pos hxb]
        by_cases hyb : y = b
        · rw [if_pos hyb, hxb, hyb]
        · rw [if_neg hyb]
          by_cases hya : y = a
          · rw [if_pos hya, hxb, hya,
              dlookup_derase_self _ _ (wf.nodupInner b),
              dlookup_derase_self _ _ (wf.nodupInner a)]
          · rw [if_neg hya, dlookup_derase_ne _ hya, hxb]
            exact wf.sym b y
      · rw [if_neg hxb]
        by_cases hxa : x = a
        · rw [if_pos hxa]
          by_cases hyb : y = b
          · rw [if_pos hyb, hxa, hyb,
              dlookup_derase_self _ _ (wf.nodupInner a),
              dlookup_derase_self _ _ (wf.nodupInner b)]
          · rw [if_neg hyb]
            by_cases hya : y = a
            · rw [if_pos hya, hxa, hya]
            · rw [if_neg hya, dlookup_derase_ne _ hyb, hxa]
              exact wf.sym a y
        · rw [if_neg hxa]
          by_cases hyb : y = b
          · rw [if_pos hyb, dlookup_derase_ne _ hxa, hyb]
            exact wf.sym x b
          · rw [if_neg hyb]
            by_cases hya : y = a
            · rw [if_pos hya, dlookup_derase_ne _ hxb, hya]
              exact wf.sym x a
            · rw [if_neg hya]
              exact wf.sym x y
    · intro x
      rw [hrow x]
      by_cases hxb : x = b
      · rw [if_pos hxb, hxb, dlookup_derase_ne _ hba]
        exact wf.noself b
      · rw [if_neg hxb]
        by_cases hxa : x = a
        · rw [if_pos hxa, hxa, dlookup_derase_ne _ hab]
          exact wf.noself a
        · rw [if_neg hxa]
          exact wf.noself x
    · intro x y hxy
      rw [hrow x] at hxy
      rw [hnode y]
      by_cases hxb : x = b
      · rw [if_pos hxb] at hxy
        by_cases hya : y = a
        · rw [hya, dlookup_derase_self _ _ (wf.nodupInner b)] at hxy
          simp at hxy
        · rw [dlookup_derase_ne _ hya] at hxy
          exact wf.closed b y hxy
      · rw [if_neg hxb] at hxy
        by_cases hxa : x = a
        · rw [if_pos hxa] at hxy
          by_cases hyb : y = b
          · rw [hyb, dlookup_derase_self _ _ (wf.nodupInner a)] at hxy
            simp at hxy
          · rw [dlookup_derase_ne _ hyb] at hxy
            exact wf.closed a y hxy
        · rw [if_neg hxa] at hxy
          exact wf.closed x y hxy
    · intro x y w hxy
      rw [hrow x] at hxy
      by_cases hxb : x = b
      · rw [if_pos hxb] at hxy
        by_cases hya : y = a
        · rw [hya, dlookup_derase_self _ _ (wf.nodupInner b)] at hxy
          exact Option.noConfusion hxy
        · rw [dlookup_derase_ne _ hya] at hxy
          exact wf.pos b y w hxy
      · rw [if_neg hxb] at hxy
        by_cases hxa : x = a
        · rw [if_pos hxa] at hxy
          by_cases hyb : y = b
          · rw [hyb, dlookup_derase_self _ _ (wf.nodupInner a)] at hxy
            exact Option.noConfusion hxy
          · rw [dlookup_derase_ne _ hyb] at hxy
            exact wf.pos a y w hxy
        · rw [if_neg hxa] at hxy
          exact wf.pos x y w hxy
  · unfold remove_edge
    rw [if_neg hedge]
    exact wf

/-- Both endpoints are nodes after any successful `add_edge`, on any graph. -/
theorem add_edge_node {g g2 : Graph} {a b : String} {w : Int}
    (h : add_edge g a b w = .ok g2) :
    has_node g2 a = true ∧ has_node g2 b = true := by
  have hvalid : ¬ (a = "" ∨ b = "" ∨ a = b ∨ w ≤ 0) := by
    intro hc
    have := (add_edge_error_iff g a b w).mpr hc
    rw [h] at this
    exact Except.noConfusion this
  push_neg at hvalid
  obtain ⟨ha, hb, hab, hw⟩ := hvalid
  unfold add_edge at h
  rw [if_neg (show ¬ (a = "" ∨ b = "") by simp [ha, hb]),
    if_neg hab, if_neg (not_le.mpr hw)] at h
  dsimp only at h
  have hmem : ∀ (rb ra : Adj) (g1 : Graph),
      has_node (dinsert b rb (dinsert a ra g1)) a = true ∧
      has_node (dinsert b rb (dinsert a ra g1)) b = true := by
    intro rb ra g1
    constructor
    · rw [has_node_iff_mem_keys, mem_keys_dinsert]
      exact Or.inl ((mem_keys_dinsert a a ra g1).mpr (Or.inr rfl))
    · rw [has_node_iff_mem_keys, mem_keys_dinsert]
      exact Or.inr rfl
  split at h <;>
    · injection h with h2
      rw [← h2]
      exact hmem _ _ _

/-! ### Reachable graphs (C2) -/

/-- Graphs reachable from the empty graph through the public mutation API. -/
inductive ReachableG : Graph → Prop where
  | empty : ReachableG []
  | addNode {g : Graph} (i : String) : ReachableG g → ReachableG (add_node g i)
  | addEdge {g g2 : Graph} {a b : String} {w : Int} :
      ReachableG g → add_edge g a b w = .ok g2 → ReachableG g2
  | removeNode {g : Graph} (i : String) : ReachableG g → ReachableG (remove_node g i)
  | removeEdge {g : Graph} (a b : String) : ReachableG g → ReachableG (remove_edge g a b)

/-- Every reachable graph is well-formed. -/
theorem wf_reachable {g : Graph} (h : ReachableG g) : Wf g := by
  induction h with
  | empty => exact wf_empty
  | addNode i _ ih => exact wf_add_node ih i
  | @addEdge g g2 a b w _ heq ih =>
    have hvalid : ¬ (a = "" ∨ b = "" ∨ a = b ∨ w ≤ 0) := by
      intro hc
      have := (add_edge_error_iff g a b w).mpr hc
      rw [heq] at this
      exact Except.noConfusion this
    push_neg at hvalid
    obtain ⟨ha, hb, hab, hw⟩ := hvalid
    obtain ⟨g3, heq3, wf3, -⟩ := add_edge_spec ih w ha hb hab hw
    rw [heq] at heq3
    injection heq3 with h3
    rw [h3]
    exact wf3
  | removeNode i _ ih => exact wf_remove_node ih i
  | removeEdge a b _ ih => exact wf_remove_edge ih a b

/-! ### The graph builder (`src/algorithms/graph_builder.py`) -/

/-- Python `str.lower` as used by the builder: per-character lowercasing. -/
def pyLower (s : String) : String :=
  ⟨s.data.map Char.toLower⟩

/-- The filter/normalize loop of one transaction:
keep `item` when `item and item.strip()` is truthy, normalized to
`item.strip().lower()`. -/
def normItems (t : List String) : List String :=
  (t.filter (fun i => !(i == "") && !(i.trim == ""))).map (fun i => pyLower i.trim)

/-- The `seen`-set first-occurrence deduplication loop of the builder. -/
def firstDedup (seen : List String) : List String → List String
  | [] => []
  | i :: t => if i ∈ seen then firstDedup seen t else i :: firstDedup (i :: seen) t

/-- `unique_items` of one transaction. -/
def uniqueItems (t : List String) : List String :=
  firstDedup [] (normItems t)

/-- The node-insertion loop over `unique_items`. -/
def addNodes (g : Graph) (items : List String) : Graph :=
  items.foldl add_node g

/-- The inner `j`-loop of the builder: edges from `a` to every later item. -/
def addEdgesTo (a : String) : Graph → List String → Except Err Graph
  | g, [] => .ok g
  | g, b :: t =>
    match add_edge g a b 1 with
    | .error e => .error e
    | .ok g2 => addEdgesTo a g2 t

/-- The double loop `for i: for j in range(i+1, len(unique_items))`. -/
def addPairEdges : Graph → List String → Except Err Graph
  | g, [] => .ok g
  | g, a :: rest =>
    match addEdgesTo a g rest with
    | .error e => .error e
    | .ok g2 => addPairEdges g2 rest

/-- Processing of one transaction: normalize, dedup, add nodes, add edges. -/
def processTx (g : Graph) (t : List String) : Except Err Graph :=
  addPairEdges (addNodes g (uniqueItems t)) (uniqueItems t)

/-- The transaction loop of `build_graph_from_transactions`. -/
def buildAux : Graph → List (List String) → Except Err Graph
  | g, [] => .ok g
  | g, t :: ts =>
    match processTx g t with
    | .error e => .error e
    | .ok g2 => buildAux g2 ts

/-- `build_graph_from_transactions`. -/
def build_graph_from_transactions (ts : List (List String)) : Except Err Graph :=
  buildAux [] ts

theorem pyLower_ne_empty {s : String} (h : s ≠ "") : pyLower s ≠ "" := by
  intro hc
  apply h
  unfold pyLower at hc
  rw [String.ext_iff] at hc ⊢
  simpa using hc

theorem mem_normItems {t : List String} {x : String} :
    x ∈ normItems t ↔ ∃ i ∈ t, i ≠ "" ∧ i.trim ≠ "" ∧ x = pyLower i.trim := by
  unfold normItems
  simp only [List.mem_map, List.mem_filter]
  constructor
  · rintro ⟨i, ⟨hi, hcond⟩, rfl⟩
    rw [Bool.and_eq_true] at hcond
    refine ⟨i, hi, ?_, ?_, rfl⟩
    · simpa using hcond.1
    · simpa using hcond.2
  · rintro ⟨i, hi, h1, h2, rfl⟩
    exact ⟨i, ⟨hi, by simp [h1, h2]⟩, rfl⟩

theorem normItems_ne_empty {t : List String} {x : String} (h : x ∈ normItems t) :
    x ≠ "" := by
  rcases mem_normItems.mp h with ⟨i, -, -, h2, rfl⟩
  exact pyLower_ne_empty h2

theorem mem_firstDedup {x : String} :
    ∀ {l seen : List String}, x ∈ firstDedup seen l ↔ x ∈ l ∧ x ∉ seen := by
  intro l
  induction l with
  | nil => intro seen; simp [firstDedup]
  | cons i t ih =>
    intro seen
    unfold firstDedup
    split <;> rename_i hmem
    · rw [ih]
      constructor
      · rintro ⟨h1, h2⟩
        exact ⟨List.mem_cons_of_mem _ h1, h2⟩
      · rintro ⟨h1, h2⟩
        rcases List.mem_cons.mp h1 with rfl | h1
        · exact absurd hmem h2
        · exact ⟨h1, h2⟩
    · rw [List.mem_cons, ih]
      constructor
      · rintro (rfl | ⟨h1, h2⟩)
        · exact ⟨List.mem_cons_self _ _, hmem⟩
        · refine ⟨List.mem_cons_of_mem _ h1, ?_⟩
          intro hc
          exact h2 (List.mem_cons_of_mem _ hc)
      · rintro ⟨h1, h2⟩
        rcases List.mem_cons.mp h1 with rfl | h1
        · exact Or.inl rfl
        · by_cases hxi : x = i
          · exact Or.inl hxi
          · refine Or.inr ⟨h1, ?_⟩
            intro hc
            rcases List.mem_cons.mp hc with h3 | h3
            · exact hxi h3
            · exact h2 h3

theorem nodup_firstDedup : ∀ (l seen : List String), (firstDedup seen l).Nodup := by
  intro l
  induction l with
  | nil => intro seen; simp [firstDedup]
  | cons i t ih =>
    intro seen
    unfold firstDedup
    split <;> rename_i hmem
    · exact ih seen
    · rw [List.nodup_cons]
      refine ⟨?_, ih (i :: seen)⟩
      intro hc
      exact (mem_firstDedup.mp hc).2 (List.mem_cons_self _ _)

theorem mem_uniqueItems {t : List String} {x : String} :
    x ∈ uniqueItems t ↔ x ∈ normItems t := by
  unfold uniqueItems
  rw [mem_firstDedup]
  simp

theorem nodup_uniqueItems (t : List String) : (uniqueItems t).Nodup :=
  nodup_firstDedup _ _

@[simp] theorem getAdj_addNodes (l : List String) :
    ∀ (g : Graph) (x : String), getAdj (addNodes g l) x = getAdj g x := by
  induction l with
  | nil => intro g x; rfl
  | cons i t ih =>
    intro g x
    unfold addNodes at ih ⊢
    rw [List.foldl_cons, ih, getAdj_add_node]

theorem has_node_addNodes (l : List String) :
    ∀ (g : Graph) (x : String),
      has_node (addNodes g l) x = true ↔ has_node g x = true ∨ x ∈ l := by
  induction l with
  | nil => intro g x; simp [addNodes]
  | cons i t ih =>
    intro g x
    unfold addNodes at ih ⊢
    rw [List.foldl_cons, ih, has_node_add_node]
    rw [List.mem_cons]
    tauto

theorem wf_addNodes (l : List String) : ∀ {g : Graph}, Wf g → Wf (addNodes g l) := by
  induction l with
  | nil => intro g wf; exact wf
  | cons i t ih =>
    intro g wf
    unfold addNodes at ih ⊢
    rw [List.foldl_cons]
    exact ih (wf_add_node wf i)

theorem get_edge_weight_addNodes (l : List String) (g : Graph) (x y : String) :
    get_edge_weight (addNodes g l) x y = get_edge_weight g x y := by
  rw [get_edge_weight_eq, get_edge_weight_eq, getAdj_addNodes]

/-- On a well-formed graph the diagonal weight is 0 (no self-loops). -/
theorem get_edge_weight_self {g : Graph} (wf : Wf g) (x : String) :
    get_edge_weight g x x = 0 := by
  rw [get_edge_weight_eq, wf.noself x]
  rfl

/-- Arithmetic of the per-pair increment when peeling one partner `b`. -/
theorem ite_pair_cons (a b : String) (t : List String) (x y : String)
    (hab : a ≠ b) (hat : a ∉ t) (hbt : b ∉ t) :
    (if (x = a ∧ y = b) ∨ (x = b ∧ y = a) then (1 : Int) else 0) +
    (if (x = a ∧ y ∈ t) ∨ (y = a ∧ x ∈ t) then (1 : Int) else 0) =
    (if (x = a ∧ y ∈ b :: t) ∨ (y = a ∧ x ∈ b :: t) then (1 : Int) else 0) := by
  by_cases hx : x = a <;> by_cases hy : y = a <;> by_cases hxb : x = b <;>
    by_cases hyb : y = b <;> by_cases hxt : x ∈ t <;> by_cases hyt : y ∈ t <;>
    simp_all

/-- Arithmetic of the per-pair increment when peeling the loop head `a`. -/
theorem ite_pair_head (a : String) (rest : List String) (x y : String)
    (har : a ∉ rest) :
    (if (x = a ∧ y ∈ rest) ∨ (y = a ∧ x ∈ rest) then (1 : Int) else 0) +
    (if x ≠ y ∧ x ∈ rest ∧ y ∈ rest then (1 : Int) else 0) =
    (if x ≠ y ∧ x ∈ a :: rest ∧ y ∈ a :: rest then (1 : Int) else 0) := by
  by_cases hx : x = a <;> by_cases hy : y = a <;> by_cases hxr : x ∈ rest <;>
    by_cases hyr : y ∈ rest <;> by_cases hxy : x = y <;>
    simp_all

/-- The inner `j`-loop adds weight 1 exactly to the pairs `{a, b}` with `b`
in `rest`, succeeds, and preserves well-formedness and the node set. -/
theorem addEdgesTo_spec (a : String) (ha : a ≠ "") :
    ∀ (rest : List String) {g : Graph}, Wf g →
      (∀ b ∈ rest, b ≠ "") → a ∉ rest → rest.Nodup →
      has_node g a = true → (∀ b ∈ rest, has_node g b = true) →
      ∃ g2, addEdgesTo a g rest = .ok g2 ∧ Wf g2 ∧
        (∀ x, has_node g2 x = has_node g x) ∧
        (∀ x y, get_edge_weight g2 x y = get_edge_weight g x y +
          (if (x = a ∧ y ∈ rest) ∨ (y = a ∧ x ∈ rest) then (1 : Int) else 0)) := by
  intro rest
  induction rest with
  | nil =>
    intro g wf _ _ _ _ _
    refine ⟨g, rfl, wf, fun x => rfl, ?_⟩
    intro x y
    simp
  | cons b t ih =>
    intro g wf hne hnotmem hnd hna hnb
    have hb : b ≠ "" := hne b (List.mem_cons_self _ _)
    have hab : a ≠ b := fun he => hnotmem (he ▸ List.mem_cons_self _ _)
    have hat : a ∉ t := fun hc => hnotmem (List.mem_cons_of_mem _ hc)
    rw [List.nodup_cons] at hnd
    obtain ⟨g2, heq, wf2, hnode2, hweight2, hedge2⟩ :=
      add_edge_spec wf 1 ha hb hab (by norm_num)
    have hnodes2 : ∀ x, has_node g2 x = has_node g x := by
      intro x
      rw [Bool.eq_iff_iff, hnode2 x]
      constructor
      · rintro (h | rfl | rfl)
        · exact h
        · exact hna
        · exact hnb _ (List.mem_cons_self _ _)
      · exact Or.inl
    obtain ⟨g3, heq3, wf3, hnode3, hweight3⟩ := ih wf2
      (fun c hc => hne c (List.mem_cons_of_mem _ hc)) hat hnd.2
      (by rw [hnodes2]; exact hna)
      (fun c hc => by rw [hnodes2]; exact hnb c (List.mem_cons_of_mem _ hc))
    refine ⟨g3, ?_, wf3, fun x => (hnode3 x).trans (hnodes2 x), ?_⟩
    · unfold addEdgesTo
      rw [heq]
      exact heq3
    · intro x y
      rw [hweight3 x y, hweight2 x y, add_assoc]
      congr 1
      exact ite_pair_cons a b t x y hab hat hnd.1

/-- The double pair loop adds weight 1 exactly to each unordered pair of
distinct items of the (nodup) list `u`, succeeds, and preserves
well-formedness and the node set. -/
theorem addPairEdges_spec :
    ∀ (u : List String) {g : Graph}, Wf g →
      (∀ b ∈ u, b ≠ "") → u.Nodup → (∀ b ∈ u, has_node g b = true) →
      ∃ g2, addPairEdges g u = .ok g2 ∧ Wf g2 ∧
        (∀ x, has_node g2 x = has_node g x) ∧
        (∀ x y, get_edge_weight g2 x y = get_edge_weight g x y +
          (if x ≠ y ∧ x ∈ u ∧ y ∈ u then (1 : Int) else 0)) := by
  intro u
  induction u with
  | nil =>
    intro g wf _ _ _
    refine ⟨g, rfl, wf, fun x => rfl, ?_⟩
    intro x y
    simp
  | cons a rest ih =>
    intro g wf hne hnd hnodes
    have ha : a ≠ "" := hne a (List.mem_cons_self _ _)
    rw [List.nodup_cons] at hnd
    obtain ⟨g2, heq, wf2, hnode2, hweight2⟩ := addEdgesTo_spec a ha rest wf
      (fun b hb => hne b (List.mem_cons_of_mem _ hb)) hnd.1 hnd.2
      (hnodes a (List.mem_cons_self _ _))
      (fun b hb => hnodes b (List.mem_cons_of_mem _ hb))
    obtain ⟨g3, heq3, wf3, hnode3, hweight3⟩ := ih wf2
      (fun b hb => hne b (List.mem_cons_of_mem _ hb)) hnd.2
      (fun b hb => by rw [hnode2]; exact hnodes b (List.mem_cons_of_mem _ hb))
    refine ⟨g3, ?_, wf3, fun x => (hnode3 x).trans (hnode2 x), ?_⟩
    · unfold addPairEdges
      rw [heq]
      exact heq3
    · intro x y
      rw [hweight3 x y, hweight2 x y, add_assoc]
      congr 1
      exact ite_pair_head a rest x y hnd.1

/-- Processing one transaction succeeds on a well-formed graph, adds exactly
the normalized items as nodes, and adds 1 to the weight of each unordered
pair of distinct normalized items of the transaction. -/
theorem processTx_spec {g : Graph} (wf : Wf g) (t : List String) :
    ∃ g2, processTx g t = .ok g2 ∧ Wf g2 ∧
      (∀ x, has_node g2 x = true ↔ has_node g x = true ∨ x ∈ normItems t) ∧
      (∀ x y, get_edge_weight g2 x y = get_edge_weight g x y +
        (if x ≠ y ∧ x ∈ normItems t ∧ y ∈ normItems t then (1 : Int) else 0)) := by
  unfold processTx
  have wfn := wf_addNodes (uniqueItems t) wf
  obtain ⟨g2, heq, wf2, hnode2, hweight2⟩ := addPairEdges_spec (uniqueItems t) wfn
    (fun b hb => normItems_ne_empty (mem_uniqueItems.mp hb)) (nodup_uniqueItems t)
    (fun b hb => (has_node_addNodes _ _ _).mpr (Or.inr hb))
  refine ⟨g2, heq, wf2, ?_, ?_⟩
  · intro x
    rw [hnode2 x, has_node_addNodes, mem_uniqueItems]
  · intro x y
    rw [hweight2 x y, get_edge_weight_addNodes]
    simp only [mem_uniqueItems]

/-- The transaction loop: node set and per-pair weights of the result, the
weight of `{x, y}` growing by the number of processed transactions whose
normalized item list contains both. -/
theorem buildAux_spec :
    ∀ (ts : List (List String)) {g : Graph}, Wf g →
      ∃ G, buildAux g ts = .ok G ∧ Wf G ∧
        (∀ x, has_node G x = true ↔ has_node g x = true ∨ ∃ t ∈ ts, x ∈ normItems t) ∧
        (∀ x y, x ≠ y → get_edge_weight G x y = get_edge_weight g x y +
          (ts.countP (fun t => decide (x ∈ normItems t ∧ y ∈ normItems t)) : Int)) := by
  intro ts
  induction ts with
  | nil =>
    intro g wf
    refine ⟨g, rfl, wf, by simp, ?_⟩
    intro x y _
    simp
  | cons t ts ih =>
    intro g wf
    obtain ⟨g2, heq2, wf2, hnode2, hweight2⟩ := processTx_spec wf t
    obtain ⟨G, heqG, wfG, hnodeG, hweightG⟩ := ih wf2
    refine ⟨G, ?_, wfG, ?_, ?_⟩
    · unfold buildAux
      rw [heq2]
      exact heqG
    · intro x
      rw [hnodeG x, hnode2 x]
      constructor
      · rintro ((h | h) | ⟨t2, ht2, hx⟩)
        · exact Or.inl h
        · exact Or.inr ⟨t, List.mem_cons_self _ _, h⟩
        · exact Or.inr ⟨t2, List.mem_cons_of_mem _ ht2, hx⟩
      · rintro (h | ⟨t2, ht2, hx⟩)
        · exact Or.inl (Or.inl h)
        · rcases List.mem_cons.mp ht2 with rfl | ht2
          · exact Or.inl (Or.inr hx)
          · exact Or.inr ⟨t2, ht2, hx⟩
    · intro x y hxy
      rw [hweightG x y hxy, hweight2 x y, List.countP_cons]
      by_cases hc : x ∈ normItems t ∧ y ∈ normItems t
      · rw [if_pos ⟨hxy, hc.1, hc.2⟩, if_pos (by simpa using hc)]
        push_cast
        ring
      · rw [if_neg (by tauto), if_neg (by simpa using hc)]
        push_cast
        ring

/-! ### Claim theorems: C2, C6, C7, C10 -/

/-- C2: for every graph reachable from the empty graph by any sequence of
`add_node`, `add_edge`, `remove_node` and `remove_edge` calls, and for all
items `a` and `b`, `has_edge a b = has_edge b a` and
`get_edge_weight a b = get_edge_weight b a`. -/
theorem claim_C2 {g : Graph} (hg : ReachableG g) (a b : String) :
    has_edge g a b = has_edge g b a ∧
    get_edge_weight g a b = get_edge_weight g b a := by
  have wf := wf_reachable hg
  constructor
  · rw [has_edge_eq, has_edge_eq, wf.sym a b]
  · rw [get_edge_weight_eq, get_edge_weight_eq, wf.sym a b]

/-- Witness for C2 at the concrete reachable graph built by one `add_edge`. -/
theorem claim_C2_witness :
    has_edge [("a", [("b", 2)]), ("b", [("a", 2)])] "a" "b" =
      has_edge [("a", [("b", 2)]), ("b", [("a", 2)])] "b" "a" ∧
    get_edge_weight [("a", [("b", 2)]), ("b", [("a", 2)])] "a" "b" =
      get_edge_weight [("a", [("b", 2)]), ("b", [("a", 2)])] "b" "a" :=
  claim_C2 (ReachableG.addEdge (a := "a") (b := "b") (w := 2)
    ReachableG.empty (by rfl)) "a" "b"

/-- C6: `add_edge` fails with `InvalidArgument` if and only if an identifier
is empty, the two identifiers are equal (self-loop), or the weight is
non-positive; every failure is `InvalidArgument`.  A failing call returns no
graph in this functional embedding (the source validates before mutating), so
the caller's graph is unchanged. -/
theorem claim_C6 (g : Graph) (a b : String) (w : Int) :
    (add_edge g a b w = .error .invalidArgument ↔
      a = "" ∨ b = "" ∨ a = b ∨ w ≤ 0) ∧
    (∀ e, add_edge g a b w = .error e → e = .invalidArgument) := by
  refine ⟨add_edge_error_iff g a b w, ?_⟩
  intro e he
  exact add_edge_error_invalid he

/-- Witness for C6: the self-loop rejection at a concrete call. -/
theorem claim_C6_witness :
    add_edge [] "bread" "bread" 1 = .error .invalidArgument :=
  (claim_C6 [] "bread" "bread" 1).1.mpr (Or.inr (Or.inr (Or.inl rfl)))

/-- C7: on a well-formed graph, `add_edge` with non-empty distinct items and
positive weight succeeds, makes both endpoints nodes, and accumulates the
weight symmetrically onto the previously stored weight (0 when absent);
a second insertion accumulates again, so w1 then w2 yields w1 + w2. -/
theorem claim_C7 {g : Graph} (wf : Wf g) {a b : String} {w : Int}
    (ha : a ≠ "") (hb : b ≠ "") (hab : a ≠ b) (hw : 0 < w) :
    ∃ g2, add_edge g a b w = .ok g2 ∧
      has_node g2 a = true ∧ has_node g2 b = true ∧
      get_edge_weight g2 a b = get_edge_weight g a b + w ∧
      get_edge_weight g2 b a = get_edge_weight g a b + w ∧
      ∀ w2, 0 < w2 → ∃ g3, add_edge g2 a b w2 = .ok g3 ∧
        get_edge_weight g3 a b = get_edge_weight g a b + w + w2 := by
  obtain ⟨g2, heq, wf2, hnode, hweight, hedge⟩ := add_edge_spec wf w ha hb hab hw
  have hsymg : get_edge_weight g b a = get_edge_weight g a b := by
    rw [get_edge_weight_eq, get_edge_weight_eq, wf.sym b a]
  refine ⟨g2, heq, (hnode a).mpr (Or.inr (Or.inl rfl)),
    (hnode b).mpr (Or.inr (Or.inr rfl)), ?_, ?_, ?_⟩
  · rw [hweight a b, if_pos (Or.inl ⟨rfl, rfl⟩)]
  · rw [hweight b a, if_pos (Or.inr ⟨rfl, rfl⟩), hsymg]
  · intro w2 hw2
    obtain ⟨g3, heq3, wf3, hnode3, hweight3, hedge3⟩ :=
      add_edge_spec wf2 w2 ha hb hab hw2
    refine ⟨g3, heq3, ?_⟩
    rw [hweight3 a b, if_pos (Or.inl ⟨rfl, rfl⟩),
      hweight a b, if_pos (Or.inl ⟨rfl, rfl⟩)]

/-- Witness for C7 on the empty graph. -/
theorem claim_C7_witness :
    ∃ g2, add_edge [] "a" "b" 1 = .ok g2 ∧
      has_node g2 "a" = true ∧ has_node g2 "b" = true ∧
      get_edge_weight g2 "a" "b" = get_edge_weight [] "a" "b" + 1 ∧
      get_edge_weight g2 "b" "a" = get_edge_weight [] "a" "b" + 1 ∧
      ∀ w2, 0 < w2 → ∃ g3, add_edge g2 "a" "b" w2 = .ok g3 ∧
        get_edge_weight g3 "a" "b" = get_edge_weight [] "a" "b" + 1 + w2 :=
  claim_C7 wf_empty (by decide) (by decide) (by decide) (by decide)

/-- C10: `add_edge` rejects only the empty string as an "empty" identifier
(the source's `not item1` is falsy only for `""`), so any non-empty
identifier — in particular a whitespace-only string such as `" "` — is
accepted together with a valid distinct partner and positive weight, and
becomes a node of the graph through the public interface. -/
theorem claim_C10 (g : Graph) {a b : String} {w : Int}
    (ha : a ≠ "") (hb : b ≠ "") (hab : a ≠ b) (hw : 0 < w) :
    ∃ g2, add_edge g a b w = .ok g2 ∧ has_node g2 a = true := by
  obtain ⟨g2, heq⟩ := add_edge_ok_of_valid g ha hb hab (not_le.mpr hw)
  exact ⟨g2, heq, (add_edge_node heq).1⟩

/-- Witness for C10: the whitespace-only identifier `" "` enters the graph. -/
theorem claim_C10_witness :
    ∃ g2, add_edge [] " " "milk" 1 = .ok g2 ∧ has_node g2 " " = true :=
  claim_C10 [] (by decide) (by decide) (by decide) (by decide)

/-- C1: `build_graph_from_transactions` succeeds on every transaction list;
the nodes of the result are exactly the normalized (trimmed, lower-cased)
forms of the non-empty, non-whitespace-only raw items occurring in some
transaction (so a single-item transaction still registers an isolated node),
and for every pair of distinct items the stored edge weight equals the number
of transactions whose deduplicated normalized item list contains both. -/
theorem claim_C1 (ts : List (List String)) :
    ∃ G, build_graph_from_transactions ts = .ok G ∧
      (∀ x, has_node G x = true ↔
        ∃ t ∈ ts, ∃ i ∈ t, i ≠ "" ∧ i.trim ≠ "" ∧ x = pyLower i.trim) ∧
      (∀ a b, a ≠ b → get_edge_weight G a b =
        (ts.countP (fun t => decide (a ∈ uniqueItems t ∧ b ∈ uniqueItems t)) : Int)) := by
  obtain ⟨G, heq, wfG, hnode, hweight⟩ := buildAux_spec ts wf_empty
  refine ⟨G, heq, ?_, ?_⟩
  · intro x
    rw [hnode x]
    constructor
    · rintro (h | ⟨t, ht, hx⟩)
      · exact absurd h (by simp [has_node, dlookup])
      · exact ⟨t, ht, mem_normItems.mp hx⟩
    · rintro ⟨t, ht, hi⟩
      exact Or.inr ⟨t, ht, mem_normItems.mpr hi⟩
  · intro a b hab
    rw [hweight a b hab]
    have h0 : get_edge_weight [] a b = 0 := by
      simp [get_edge_weight, has_edge, dlookup]
    rw [h0, zero_add]
    congr 1
    apply List.countP_congr
    intro t _
    simp only [decide_eq_true_eq, mem_uniqueItems]

/-! ### Edge enumeration and counting (C8, C9) -/

/-- All directed adjacency entries of the graph, as ordered pairs. -/
def orderedPairs (g : Graph) : List (String × String) :=
  g.flatMap (fun p => p.2.map (fun q => (p.1, q.1)))

theorem mem_orderedPairs {g : Graph} (wf : Wf g) (a b : String) :
    (a, b) ∈ orderedPairs g ↔ has_edge g a b = true := by
  unfold orderedPairs
  rw [List.mem_flatMap]
  constructor
  · rintro ⟨⟨pa, padj⟩, hp, hmem⟩
    rcases List.mem_map.mp hmem with ⟨⟨qb, qw⟩, hq, heq⟩
    injection heq with h1 h2
    subst h1
    subst h2
    rw [has_edge_eq, getAdj_of_mem wf.nodupOuter hp, dlookup_isSome_iff]
    exact mem_keys.mpr ⟨qw, hq⟩
  · intro h
    rw [has_edge_eq, dlookup_isSome_iff, mem_keys] at h
    obtain ⟨w, hw⟩ := h
    have hnode : has_node g a = true := by
      by_contra hna
      rw [getAdj_eq_nil_of_not_node hna] at hw
      simp at hw
    refine ⟨(a, getAdj g a), dlookup_mem (dlookup_eq_getAdj hnode), ?_⟩
    exact List.mem_map.mpr ⟨(b, w), hw, rfl⟩

theorem nodup_orderedPairs {g : Graph} (wf : Wf g) : (orderedPairs g).Nodup := by
  unfold orderedPairs
  rw [List.nodup_flatMap]
  constructor
  · intro p hp
    have hmapmap : p.2.map (fun q => (p.1, q.1)) =
        (keys p.2).map (fun k => (p.1, k)) := by
      unfold keys
      rw [List.map_map]
      rfl
    rw [hmapmap]
    refine List.Nodup.map ?_ ?_
    · intro x y hxy
      injection hxy
    · have h2 := wf.nodupInner p.1
      rw [getAdj_of_mem wf.nodupOuter (show (p.1, p.2) ∈ g from hp)] at h2
      exact h2
  · have h := wf.nodupOuter
    unfold keys at h
    have hpw : g.Pairwise (fun p q => p.1 ≠ q.1) := by
      rw [List.Nodup, List.pairwise_map] at h
      exact h
    refine hpw.imp ?_
    intro p q hpq
    intro l hl1 hl2
    rcases List.mem_map.mp hl1 with ⟨u, -, hu⟩
    rcases List.mem_map.mp hl2 with ⟨v, -, hv⟩
    apply hpq
    rw [← hu] at hv
    injection hv with hv1 hv2
    exact hv1.symm

theorem length_orderedPairs (g : Graph) :
    (orderedPairs g).length = (g.map (fun p => p.2.length)).sum := by
  unfold orderedPairs
  rw [List.length_flatMap]
  congr 1
  apply List.map_congr_left
  intro p _
  simp

/-- The canonical unordered-edge set of a graph: ordered pairs with the
smaller endpoint first. -/
def canonEdges (g : Graph) : Finset (String × String) :=
  (orderedPairs g).toFinset.filter (fun p => p.1 < p.2)

theorem mem_canonEdges {g : Graph} (wf : Wf g) (a b : String) :
    (a, b) ∈ canonEdges g ↔ has_edge g a b = true ∧ a < b := by
  unfold canonEdges
  rw [Finset.mem_filter, List.mem_toFinset, mem_orderedPairs wf]

/-- No self-loop is stored in a well-formed graph. -/
theorem has_edge_ne {g : Graph} (wf : Wf g) {a b : String}
    (h : has_edge g a b = true) : a ≠ b := by
  rintro rfl
  rw [has_edge_eq, wf.noself] at h
  simp at h

/-- Edge symmetry of a well-formed graph (Bool form). -/
theorem has_edge_symm {g : Graph} (wf : Wf g) (a b : String) :
    has_edge g a b = has_edge g b a := by
  rw [has_edge_eq, has_edge_eq, wf.sym a b]

/-- The handshake identity: the total adjacency size is twice the number of
distinct unordered edges. -/
theorem handshake {g : Graph} (wf : Wf g) :
    (g.map (fun p => p.2.length)).sum = 2 * (canonEdges g).card := by
  have hlen : (g.map (fun p => p.2.length)).sum = (orderedPairs g).toFinset.card := by
    rw [List.toFinset_card_of_nodup (nodup_orderedPairs wf), length_orderedPairs]
  rw [hlen]
  have hsplit := Finset.filter_card_add_filter_neg_card_eq_card
    (s := (orderedPairs g).toFinset) (p := fun p : String × String => p.1 < p.2)
  have hswap : ((orderedPairs g).toFinset.filter
      (fun p : String × String => ¬ p.1 < p.2)).card = (canonEdges g).card := by
    apply Finset.card_bij (fun p _ => Prod.swap p)
    · rintro ⟨a, b⟩ hp
      rw [Finset.mem_filter, List.mem_toFinset] at hp
      obtain ⟨hmem, hlt⟩ := hp
      have hedge : has_edge g a b = true := (mem_orderedPairs wf a b).mp hmem
      have hne : a ≠ b := has_edge_ne wf hedge
      have hba : b < a := (lt_or_gt_of_ne hne).resolve_left hlt
      rw [Prod.swap_prod_mk, mem_canonEdges wf]
      exact ⟨by rw [has_edge_symm wf b a]; exact hedge, hba⟩
    · intro p1 h1 p2 h2 hsw
      exact Prod.swap_injective hsw
    · rintro ⟨a, b⟩ hq
      rw [mem_canonEdges wf] at hq
      refine ⟨(b, a), ?_, rfl⟩
      rw [Finset.mem_filter, List.mem_toFinset, mem_orderedPairs wf]
      exact ⟨by rw [has_edge_symm wf b a]; exact hq.1, not_lt.mpr (le_of_lt hq.2)⟩
  unfold canonEdges at hswap ⊢
  omega

/-- `edge_count` counts the distinct unordered edges of a well-formed graph. -/
theorem edge_count_eq_card {g : Graph} (wf : Wf g) :
    edge_count g = (canonEdges g).card := by
  unfold edge_count
  rw [handshake wf]
  omega

/-- On a well-formed graph an edge exists exactly when its weight is
non-zero. -/
theorem has_edge_iff_weight {g : Graph} (wf : Wf g) (a b : String) :
    has_edge g a b = true ↔ get_edge_weight g a b ≠ 0 := by
  constructor
  · intro h
    rw [get_edge_weight_eq]
    rw [has_edge_eq] at h
    obtain ⟨w, hw⟩ := Option.isSome_iff_exists.mp h
    rw [hw]
    simpa using ne_of_gt (wf.pos a b w hw)
  · intro h
    by_contra hc
    apply h
    simp [get_edge_weight, hc]

/-- C8: building from any permutation of the transaction list yields a graph
with the same node set, node count, edge count, and per-pair edge weights. -/
theorem claim_C8 {ts1 ts2 : List (List String)} (hperm : ts1.Perm ts2) :
    ∃ G1 G2, build_graph_from_transactions ts1 = .ok G1 ∧
      build_graph_from_transactions ts2 = .ok G2 ∧
      (∀ x, has_node G1 x = has_node G2 x) ∧
      node_count G1 = node_count G2 ∧
      edge_count G1 = edge_count G2 ∧
      (∀ a b, get_edge_weight G1 a b = get_edge_weight G2 a b) := by
  obtain ⟨G1, heq1, wf1, hnode1, hweight1⟩ := buildAux_spec ts1 wf_empty
  obtain ⟨G2, heq2, wf2, hnode2, hweight2⟩ := buildAux_spec ts2 wf_empty
  have hweq : ∀ a b, get_edge_weight G1 a b = get_edge_weight G2 a b := by
    intro a b
    by_cases hab : a = b
    · subst hab
      rw [get_edge_weight_self wf1, get_edge_weight_self wf2]
    · rw [hweight1 a b hab, hweight2 a b hab]
      congr 2
      exact hperm.countP_eq _
  have hnodeeq : ∀ x, has_node G1 x = has_node G2 x := by
    intro x
    rw [Bool.eq_iff_iff, hnode1 x, hnode2 x]
    constructor
    · rintro (h | ⟨t, ht, hx⟩)
      · exact Or.inl h
      · exact Or.inr ⟨t, hperm.mem_iff.mp ht, hx⟩
    · rintro (h | ⟨t, ht, hx⟩)
      · exact Or.inl h
      · exact Or.inr ⟨t, hperm.mem_iff.mpr ht, hx⟩
  have hnc : node_count G1 = node_count G2 := by
    have hn1 : node_count G1 = (keys G1).toFinset.card := by
      rw [List.toFinset_card_of_nodup wf1.nodupOuter]
      unfold node_count keys
      rw [List.length_map]
    have hn2 : node_count G2 = (keys G2).toFinset.card := by
      rw [List.toFinset_card_of_nodup wf2.nodupOuter]
      unfold node_count keys
      rw [List.length_map]
    rw [hn1, hn2]
    congr 1
    apply Finset.ext
    intro x
    rw [List.mem_toFinset, List.mem_toFinset, ← has_node_iff_mem_keys,
      ← has_node_iff_mem_keys, hnodeeq x]
  have hec : edge_count G1 = edge_count G2 := by
    rw [edge_count_eq_card wf1, edge_count_eq_card wf2]
    congr 1
    apply Finset.ext
    rintro ⟨a, b⟩
    rw [mem_canonEdges wf1, mem_canonEdges wf2,
      has_edge_iff_weight wf1, has_edge_iff_weight wf2, hweq a b]
  exact ⟨G1, G2, heq1, heq2, hnodeeq, hnc, hec, hweq⟩

/-- Witness for C8 at a concrete permutation of a two-transaction list. -/
theorem claim_C8_witness :
    ∃ G1 G2,
      build_graph_from_transactions [["a", "b"], ["b", "c"]] = .ok G1 ∧
      build_graph_from_transactions [["b", "c"], ["a", "b"]] = .ok G2 ∧
      (∀ x, has_node G1 x = has_node G2 x) ∧
      node_count G1 = node_count G2 ∧
      edge_count G1 = edge_count G2 ∧
      (∀ a b, get_edge_weight G1 a b = get_edge_weight G2 a b) :=
  claim_C8 (by decide)

/-! ### `get_all_edges` (C9) -/

theorem canonPair_comm (a b : String) : canonPair a b = canonPair b a := by
  unfold canonPair
  by_cases h1 : a ≤ b
  · by_cases h2 : b ≤ a
    · rw [if_pos h1, if_pos h2, le_antisymm h1 h2]
    · rw [if_pos h1, if_neg h2]
  · have h2 : b ≤ a := (le_total a b).resolve_left h1
    rw [if_neg h1, if_pos h2]

theorem canonPair_lt {a b : String} (h : a ≠ b) :
    (canonPair a b).1 < (canonPair a b).2 := by
  unfold canonPair
  by_cases h1 : a ≤ b
  · rw [if_pos h1]
    exact lt_of_le_of_ne h1 h
  · rw [if_neg h1]
    exact not_le.mp h1

theorem canonPair_of_lt {a b : String} (h : a < b) : canonPair a b = (a, b) := by
  unfold canonPair
  rw [if_pos (le_of_lt h)]

theorem canonPair_mem_canonEdges {g : Graph} (wf : Wf g) {a b : String}
    (h : has_edge g a b = true) : canonPair a b ∈ canonEdges g := by
  have hne : a ≠ b := has_edge_ne wf h
  unfold canonPair
  by_cases h1 : a ≤ b
  · rw [if_pos h1, mem_canonEdges wf]
    exact ⟨h, lt_of_le_of_ne h1 hne⟩
  · rw [if_neg h1, mem_canonEdges wf]
    refine ⟨?_, not_le.mp h1⟩
    rw [has_edge_symm wf b a]
    exact h

/-- Invariants of the inner loop of `get_all_edges` over one row. -/
theorem edgesRow_spec (a : String) :
    ∀ (adj : Adj) (seen : List (String × String)),
      (∀ e ∈ (edgesRow a adj seen).1, e.1 = a ∧ (e.2.1, e.2.2) ∈ adj) ∧
      ((edgesRow a adj seen).1.map (fun e => canonPair e.1 e.2.1)).Nodup ∧
      (∀ c ∈ (edgesRow a adj seen).1.map (fun e => canonPair e.1 e.2.1), c ∉ seen) ∧
      (∀ x, x ∈ (edgesRow a adj seen).2 ↔
        x ∈ seen ∨ x ∈ (edgesRow a adj seen).1.map (fun e => canonPair e.1 e.2.1)) ∧
      (∀ p ∈ adj, canonPair a p.1 ∈ (edgesRow a adj seen).2) := by
  intro adj
  induction adj with
  | nil =>
    intro seen
    refine ⟨by simp [edgesRow], by simp [edgesRow], by simp [edgesRow], ?_, by simp⟩
    intro x
    simp [edgesRow]
  | cons p t ih =>
    obtain ⟨b, w⟩ := p
    intro seen
    unfold edgesRow
    dsimp only
    split <;> rename_i hseen
    · obtain ⟨ih1, ih2, ih3, ih4, ih5⟩ := ih seen
      refine ⟨?_, ih2, ih3, ih4, ?_⟩
      · intro e he
        obtain ⟨he1, he2⟩ := ih1 e he
        exact ⟨he1, List.mem_cons_of_mem _ he2⟩
      · intro q hq
        rcases List.mem_cons.mp hq with rfl | hq2
        · exact (ih4 _).mpr (Or.inl hseen)
        · exact ih5 q hq2
    · obtain ⟨ih1, ih2, ih3, ih4, ih5⟩ := ih (canonPair a b :: seen)
      refine ⟨?_, ?_, ?_, ?_, ?_⟩
      · intro e he
        rcases List.mem_cons.mp he with rfl | he2
        · exact ⟨rfl, List.mem_cons_self _ _⟩
        · obtain ⟨h1, h2⟩ := ih1 e he2
          exact ⟨h1, List.mem_cons_of_mem _ h2⟩
      · rw [List.map_cons, List.nodup_cons]
        refine ⟨?_, ih2⟩
        intro hc
        exact ih3 _ hc (List.mem_cons_self _ _)
      · intro c hc
        rw [List.map_cons] at hc
        rcases List.mem_cons.mp hc with rfl | hc2
        · exact hseen
        · intro hcs
          exact ih3 c hc2 (List.mem_cons_of_mem _ hcs)
      · intro x
        rw [ih4 x, List.map_cons]
        constructor
        · rintro (hx | hx)
          · rcases List.mem_cons.mp hx with rfl | hx2
            · exact Or.inr (List.mem_cons_self _ _)
            · exact Or.inl hx2
          · exact Or.inr (List.mem_cons_of_mem _ hx)
        · rintro (hx | hx)
          · exact Or.inl (List.mem_cons_of_mem _ hx)
          · rcases List.mem_cons.mp hx with rfl | hx2
            · exact Or.inl (List.mem_cons_self _ _)
            · exact Or.inr hx2
      · intro q hq
        rcases List.mem_cons.mp hq with rfl | hq2
        · exact (ih4 _).mpr (Or.inl (List.mem_cons_self _ _))
        · exact ih5 q hq2

/-- Invariants of the outer loop of `get_all_edges`. -/
theorem edgesAux_spec :
    ∀ (g : Graph) (seen : List (String × String)),
      (∀ e ∈ edgesAux g seen, ∃ adj, (e.1, adj) ∈ g ∧ (e.2.1, e.2.2) ∈ adj) ∧
      ((edgesAux g seen).map (fun e => canonPair e.1 e.2.1)).Nodup ∧
      (∀ c ∈ (edgesAux g seen).map (fun e => canonPair e.1 e.2.1), c ∉ seen) ∧
      (∀ (a : String) (adj : Adj), (a, adj) ∈ g → ∀ p ∈ adj,
        canonPair a p.1 ∈ seen ∨
          canonPair a p.1 ∈ (edgesAux g seen).map (fun e => canonPair e.1 e.2.1)) := by
  intro g
  induction g with
  | nil =>
    intro seen
    refine ⟨by simp [edgesAux], by simp [edgesAux], by simp [edgesAux], ?_⟩
    intro a adj h
    simp at h
  | cons hd rest ih =>
    obtain ⟨a0, adj0⟩ := hd
    intro seen
    obtain ⟨r1, r2, r3, r4, r5⟩ := edgesRow_spec a0 adj0 seen
    obtain ⟨ih1, ih2, ih3, ih4⟩ := ih (edgesRow a0 adj0 seen).2
    have hstep : edgesAux ((a0, adj0) :: rest) seen =
        (edgesRow a0 adj0 seen).1 ++ edgesAux rest (edgesRow a0 adj0 seen).2 := rfl
    refine ⟨?_, ?_, ?_, ?_⟩
    · intro e he
      rw [hstep, List.mem_append] at he
      rcases he with he | he
      · obtain ⟨h1, h2⟩ := r1 e he
        exact ⟨adj0, by rw [h1]; exact List.mem_cons_self _ _, h2⟩
      · obtain ⟨adj, h1, h2⟩ := ih1 e he
        exact ⟨adj, List.mem_cons_of_mem _ h1, h2⟩
    · rw [hstep, List.map_append, List.nodup_append]
      refine ⟨r2, ih2, ?_⟩
      intro c hc hc2
      exact ih3 c hc2 ((r4 c).mpr (Or.inr hc))
    · intro c hc hcseen
      rw [hstep, List.map_append, List.mem_append] at hc
      rcases hc with hc | hc
      · exact r3 c hc hcseen
      · exact ih3 c hc ((r4 c).mpr (Or.inl hcseen))
    · intro a adj hmem p hp
      rw [hstep, List.map_append]
      rcases List.mem_cons.mp hmem with heq | hmem2
      · injection heq with h1 h2
        subst h1
        subst h2
        have := r5 p hp
        rcases (r4 _).mp this with h | h
        · exact Or.inl h
        · exact Or.inr (List.mem_append.mpr (Or.inl h))
      · rcases ih4 a adj hmem2 p hp with h | h
        · rcases (r4 _).mp h with h2 | h2
          · exact Or.inl h2
          · exact Or.inr (List.mem_append.mpr (Or.inl h2))
        · exact Or.inr (List.mem_append.mpr (Or.inr h))

/-- C9: `get_all_edges` lists each unordered adjacent pair exactly once with
its stored weight, and `edge_count` equals its length. -/
theorem claim_C9 {g : Graph} (wf : Wf g) :
    (∀ e ∈ get_all_edges g, has_edge g e.1 e.2.1 = true ∧
      e.2.2 = get_edge_weight g e.1 e.2.1) ∧
    ((get_all_edges g).map (fun e => canonPair e.1 e.2.1)).Nodup ∧
    (∀ a b, has_edge g a b = true →
      canonPair a b ∈ (get_all_edges g).map (fun e => canonPair e.1 e.2.1)) ∧
    edge_count g = (get_all_edges g).length := by
  obtain ⟨h1, h2, h3, h4⟩ := edgesAux_spec g []
  have h2g : ((get_all_edges g).map (fun e => canonPair e.1 e.2.1)).Nodup := h2
  have hvalid : ∀ e ∈ get_all_edges g, has_edge g e.1 e.2.1 = true ∧
      e.2.2 = get_edge_weight g e.1 e.2.1 := by
    intro e he
    obtain ⟨adj, hmem, hpair⟩ := h1 e he
    have hrow : getAdj g e.1 = adj := getAdj_of_mem wf.nodupOuter hmem
    have hlook : dlookup e.2.1 (getAdj g e.1) = some e.2.2 := by
      rw [hrow]
      apply mem_dlookup ?_ hpair
      have h5 := wf.nodupInner e.1
      rwa [hrow] at h5
    constructor
    · rw [has_edge_eq, hlook]
      rfl
    · rw [get_edge_weight_eq, hlook]
      rfl
  have hcomplete : ∀ a b, has_edge g a b = true →
      canonPair a b ∈ (get_all_edges g).map (fun e => canonPair e.1 e.2.1) := by
    intro a b hedge
    have hsome : (dlookup b (getAdj g a)).isSome = true := by
      rw [← has_edge_eq]
      exact hedge
    have hanode : has_node g a = true := by
      by_contra hna
      rw [getAdj_eq_nil_of_not_node hna] at hsome
      simp [dlookup] at hsome
    obtain ⟨w, hw⟩ := Option.isSome_iff_exists.mp hsome
    rcases h4 a (getAdj g a) (dlookup_mem (dlookup_eq_getAdj hanode)) (b, w)
        (dlookup_mem hw) with h | h
    · exact absurd h (List.not_mem_nil _)
    · exact h
  refine ⟨hvalid, h2g, hcomplete, ?_⟩
  have hlen : (get_all_edges g).length =
      ((get_all_edges g).map (fun e => canonPair e.1 e.2.1)).length := by
    rw [List.length_map]
  rw [edge_count_eq_card wf, hlen,
    ← List.toFinset_card_of_nodup h2g]
  congr 1
  apply Finset.ext
  rintro ⟨a, b⟩
  rw [List.mem_toFinset, mem_canonEdges wf]
  constructor
  · intro hc
    have := hcomplete a b hc.1
    rwa [canonPair_of_lt hc.2] at this
  · intro hc
    rcases List.mem_map.mp hc with ⟨e, he, heq⟩
    have hmem := canonPair_mem_canonEdges wf (hvalid e he).1
    rw [heq, mem_canonEdges wf] at hmem
    exact hmem

/-- Witness for C9 at a concrete reachable graph. -/
theorem claim_C9_witness :
    (∀ e ∈ get_all_edges [("a", [("b", 2)]), ("b", [("a", 2)])],
      has_edge [("a", [("b", 2)]), ("b", [("a", 2)])] e.1 e.2.1 = true ∧
      e.2.2 = get_edge_weight [("a", [("b", 2)]), ("b", [("a", 2)])] e.1 e.2.1) ∧
    ((get_all_edges [("a", [("b", 2)]), ("b", [("a", 2)])]).map
      (fun e => canonPair e.1 e.2.1)).Nodup ∧
    (∀ a b, has_edge [("a", [("b", 2)]), ("b", [("a", 2)])] a b = true →
      canonPair a b ∈ (get_all_edges [("a", [("b", 2)]), ("b", [("a", 2)])]).map
        (fun e => canonPair e.1 e.2.1)) ∧
    edge_count [("a", [("b", 2)]), ("b", [("a", 2)])] =
      (get_all_edges [("a", [("b", 2)]), ("b", [("a", 2)])]).length :=
  claim_C9 (wf_reachable (ReachableG.addEdge (a := "a") (b := "b") (w := 2)
    ReachableG.empty (by rfl)))

/-! ### Merge sort (`src/algorithms/sorting.py`) -/

/-- The comparison that keeps the left element in `_merge`:
`left_key >= right_key` when `reverse`, `left_key <= right_key` otherwise. -/
def keeps {α β : Type} [LinearOrder β] (key : α → β) (reverse : Bool) (a b : α) : Prop :=
  if reverse then key b ≤ key a else key a ≤ key b

instance {α β : Type} [LinearOrder β] (key : α → β) (reverse : Bool) (a b : α) :
    Decidable (keeps key reverse a b) := by
  unfold keeps
  infer_instance

/-- The `_merge` helper of `merge_sort`: left-biased two-way merge. -/
def mergePy {α β : Type} [LinearOrder β] (key : α → β) (reverse : Bool) :
    List α → List α → List α
  | [], r => r
  | a :: l, [] => a :: l
  | a :: l, b :: r =>
    if reverse then
      if key b ≤ key a then a :: mergePy key reverse l (b :: r)
      else b :: mergePy key reverse (a :: l) r
    else
      if key a ≤ key b then a :: mergePy key reverse l (b :: r)
      else b :: mergePy key reverse (a :: l) r
termination_by l r => l.length + r.length

/-- `_merge_sort`: split at the middle index, sort both halves, merge. -/
def msortPy {α β : Type} [LinearOrder β] (key : α → β) (reverse : Bool)
    (arr : List α) : List α :=
  if arr.length ≤ 1 then arr
  else
    mergePy key reverse (msortPy key reverse (arr.take (arr.length / 2)))
      (msortPy key reverse (arr.drop (arr.length / 2)))
termination_by arr.length
decreasing_by
  · rw [List.length_take]
    omega
  · rw [List.length_drop]
    omega

/-- `merge_sort(items, key=None, reverse=False)`: short lists are returned as
a copy, otherwise `_merge_sort` runs on a copy (`key=None` means the identity
key, which callers pass explicitly here). -/
def merge_sort {α β : Type} [LinearOrder β] (key : α → β) (reverse : Bool)
    (items : List α) : List α :=
  if items.length ≤ 1 then items else msortPy key reverse items

theorem keeps_total {α β : Type} [LinearOrder β] (key : α → β) (reverse : Bool)
    (a b : α) (h : ¬ keeps key reverse a b) : keeps key reverse b a := by
  unfold keeps at h ⊢
  cases reverse <;> simp_all <;> exact le_of_lt h

theorem keeps_trans {α β : Type} [LinearOrder β] (key : α → β) (reverse : Bool)
    {a b c : α} (h1 : keeps key reverse a b) (h2 : keeps key reverse b c) :
    keeps key reverse a c := by
  unfold keeps at h1 h2 ⊢
  cases reverse <;> simp_all
  · exact le_trans h1 h2
  · exact le_trans h2 h1

theorem keeps_congr_right {α β : Type} [LinearOrder β] (key : α → β) (reverse : Bool)
    {a b c : α} (h : key b = key c) : keeps key reverse a b ↔ keeps key reverse a c := by
  unfold keeps
  rw [h]

theorem mergePy_cons_cons {α β : Type} [LinearOrder β] (key : α → β) (reverse : Bool)
    (a b : α) (l r : List α) :
    mergePy key reverse (a :: l) (b :: r) =
      if keeps key reverse a b then a :: mergePy key reverse l (b :: r)
      else b :: mergePy key reverse (a :: l) r := by
  cases reverse <;> simp [mergePy, keeps]

theorem mergePy_perm {α β : Type} [LinearOrder β] (key : α → β) (reverse : Bool) :
    ∀ (l r : List α), (mergePy key reverse l r).Perm (l ++ r) := by
  intro l
  induction l with
  | nil =>
    intro r
    rw [show mergePy key reverse [] r = r from by cases r <;> simp [mergePy]]
    simp
  | cons a l ihl =>
    intro r
    induction r with
    | nil => simp [mergePy]
    | cons b r ihr =>
      rw [mergePy_cons_cons]
      split
      · exact ((ihl (b :: r)).cons a)
      · refine ((ihr).cons b).trans ?_
        exact (List.perm_middle).symm

theorem mergePy_mem {α β : Type} [LinearOrder β] (key : α → β) (reverse : Bool)
    {l r : List α} {x : α} (h : x ∈ mergePy key reverse l r) : x ∈ l ∨ x ∈ r := by
  have := (mergePy_perm key reverse l r).mem_iff.mp h
  rwa [List.mem_append] at this

theorem mergePy_sorted {α β : Type} [LinearOrder β] (key : α → β) (reverse : Bool) :
    ∀ (l r : List α), l.Pairwise (keeps key reverse) → r.Pairwise (keeps key reverse) →
      (mergePy key reverse l r).Pairwise (keeps key reverse) := by
  intro l
  induction l with
  | nil =>
    intro r _ hr
    rw [show mergePy key reverse [] r = r from by cases r <;> simp [mergePy]]
    exact hr
  | cons a l ihl =>
    intro r
    induction r with
    | nil =>
      intro hl _
      simpa [mergePy] using hl
    | cons b r ihr =>
      intro hl hr
      rw [List.pairwise_cons] at hl hr
      rw [mergePy_cons_cons]
      split <;> rename_i hk
      · rw [List.pairwise_cons]
        refine ⟨?_, ihl (b :: r) hl.2 (List.pairwise_cons.mpr hr)⟩
        intro x hx
        rcases mergePy_mem key reverse hx with hx | hx
        · exact hl.1 x hx
        · rcases List.mem_cons.mp hx with rfl | hx2
          · exact hk
          · exact keeps_trans key reverse hk (hr.1 x hx2)
      · rw [List.pairwise_cons]
        refine ⟨?_, ihr (List.pairwise_cons.mpr hl) hr.2⟩
        intro x hx
        rcases mergePy_mem key reverse hx with hx | hx
        · rcases List.mem_cons.mp hx with rfl | hx2
          · exact keeps_total key reverse _ _ hk
          · exact keeps_trans key reverse (keeps_total key reverse a b hk) (hl.1 x hx2)
        · exact hr.1 x hx

theorem mergePy_filter {α β : Type} [LinearOrder β] (key : α → β) (reverse : Bool)
    (k : β) :
    ∀ (l r : List α), l.Pairwise (keeps key reverse) →
      (mergePy key reverse l r).filter (fun x => decide (key x = k)) =
        l.filter (fun x => decide (key x = k)) ++
          r.filter (fun x => decide (key x = k)) := by
  intro l
  induction l with
  | nil =>
    intro r _
    rw [show mergePy key reverse [] r = r from by cases r <;> simp [mergePy]]
    simp
  | cons a l ihl =>
    intro r
    induction r with
    | nil =>
      intro _
      simp [mergePy]
    | cons b r ihr =>
      intro hl
      rw [mergePy_cons_cons]
      split <;> rename_i hk
      · rw [List.pairwise_cons] at hl
        have hrec := ihl (b :: r) hl.2
        by_cases hpa : key a = k <;> simp [List.filter_cons, hrec, hpa]
      · have hnotk : ∀ x ∈ a :: l, ¬ key x = key b := by
          intro x hx hxb
          apply hk
          have hax : keeps key reverse a x := by
            rcases List.mem_cons.mp hx with rfl | hx2
            · unfold keeps
              cases reverse <;> simp
            · exact (List.pairwise_cons.mp hl).1 x hx2
          exact (keeps_congr_right key reverse hxb).mp hax
        have hrec := ihr hl
        by_cases hpb : key b = k
        · have hfiltl : (a :: l).filter (fun x => decide (key x = k)) = [] := by
            rw [List.filter_eq_nil_iff]
            intro x hx
            simp only [decide_eq_true_eq]
            intro hc
            exact hnotk x hx (by rw [hc, hpb])
          rw [List.filter_cons, hrec, hfiltl]
          simp only [List.nil_append]
          rw [List.filter_cons]
        · have hbr : (b :: r).filter (fun x => decide (key x = k)) =
              r.filter (fun x => decide (key x = k)) := by
            rw [List.filter_cons, if_neg (by simp [hpb])]
          rw [List.filter_cons, hrec, hbr, if_neg (by simp [hpb])]

theorem pairwise_of_length_le_one {α : Type} {r : α → α → Prop} {l : List α}
    (h : l.length ≤ 1) : l.Pairwise r := by
  match l with
  | [] => exact .nil
  | [x] => simp
  | x :: y :: t => simp at h

/-- Permutation, sortedness and per-key stability of `_merge_sort`, by
strong induction on the length. -/
theorem msortPy_props {α β : Type} [LinearOrder β] (key : α → β) (reverse : Bool) :
    ∀ (n : Nat) (l : List α), l.length ≤ n →
      (msortPy key reverse l).Perm l ∧
      (msortPy key reverse l).Pairwise (keeps key reverse) ∧
      (∀ k : β, (msortPy key reverse l).filter (fun x => decide (key x = k)) =
        l.filter (fun x => decide (key x = k))) := by
  intro n
  induction n with
  | zero =>
    intro l hl
    have hnil : l = [] := List.length_eq_zero.mp (Nat.le_zero.mp hl)
    subst hnil
    rw [show msortPy key reverse ([] : List α) = [] from by rw [msortPy]; simp]
    exact ⟨.refl _, .nil, fun k => rfl⟩
  | succ n ih =>
    intro l hl
    rw [msortPy]
    split <;> rename_i hlen
    · exact ⟨.refl _, pairwise_of_length_le_one hlen, fun k => rfl⟩
    · push_neg at hlen
      have htake : (l.take (l.length / 2)).length ≤ n := by
        rw [List.length_take]
        omega
      have hdrop : (l.drop (l.length / 2)).length ≤ n := by
        rw [List.length_drop]
        omega
      obtain ⟨p1, s1, f1⟩ := ih _ htake
      obtain ⟨p2, s2, f2⟩ := ih _ hdrop
      refine ⟨?_, mergePy_sorted key reverse _ _ s1 s2, ?_⟩
      · refine (mergePy_perm key reverse _ _).trans ((p1.append p2).trans ?_)
        rw [List.take_append_drop]
      · intro k
        rw [mergePy_filter key reverse k _ _ s1, f1 k, f2 k, ← List.filter_append,
          List.take_append_drop]

/-- C5: `merge_sort` returns a permutation of its input that is sorted
non-decreasingly by key (non-increasingly when `reverse`), equal-key elements
keep their relative input order (the filter at each key value is unchanged,
in both directions), the input itself is untouched (the embedding is
functional, as the source copies its input), and inputs of length ≤ 1 are
returned unchanged. -/
theorem claim_C5 {α β : Type} [LinearOrder β] (key : α → β) (reverse : Bool)
    (items : List α) :
    (merge_sort key reverse items).Perm items ∧
    (if reverse then
        (merge_sort key reverse items).Pairwise (fun x y => key y ≤ key x)
      else
        (merge_sort key reverse items).Pairwise (fun x y => key x ≤ key y)) ∧
    (∀ k : β, (merge_sort key reverse items).filter (fun x => decide (key x = k)) =
      items.filter (fun x => decide (key x = k))) ∧
    (items.length ≤ 1 → merge_sort key reverse items = items) := by
  have hpair : ∀ l : List α, l.Pairwise (keeps key reverse) →
      (if reverse then l.Pairwise (fun x y => key y ≤ key x)
        else l.Pairwise (fun x y => key x ≤ key y)) := by
    intro l h
    cases reverse
    · simp only [Bool.false_eq_true, if_false]
      refine h.imp ?_
      intro a b hk
      unfold keeps at hk
      simpa using hk
    · simp only [if_true]
      refine h.imp ?_
      intro a b hk
      unfold keeps at hk
      simpa using hk
  unfold merge_sort
  split <;> rename_i hlen
  · exact ⟨.refl _, hpair _ (pairwise_of_length_le_one hlen), fun k => rfl, fun _ => rfl⟩
  · obtain ⟨hp, hs, hf⟩ := msortPy_props key reverse items.length items le_rfl
    exact ⟨hp, hpair _ hs, hf, fun hcon => absurd hcon hlen⟩

/-- Witness for C5 on the spec's example list, with the second-component key. -/
theorem claim_C5_witness :
    (merge_sort (fun x : String × Int => x.2) false [("a", 3), ("b", 1), ("c", 2)]).Perm
        [("a", 3), ("b", 1), ("c", 2)] ∧
    (if false then
        (merge_sort (fun x : String × Int => x.2) false
            [("a", 3), ("b", 1), ("c", 2)]).Pairwise (fun x y => y.2 ≤ x.2)
      else
        (merge_sort (fun x : String × Int => x.2) false
            [("a", 3), ("b", 1), ("c", 2)]).Pairwise (fun x y => x.2 ≤ y.2)) ∧
    (∀ k : Int, (merge_sort (fun x : String × Int => x.2) false
        [("a", 3), ("b", 1), ("c", 2)]).filter (fun x => decide (x.2 = k)) =
      ([("a", 3), ("b", 1), ("c", 2)] : List (String × Int)).filter
        (fun x => decide (x.2 = k))) ∧
    (([("a", 3), ("b", 1), ("c", 2)] : List (String × Int)).length ≤ 1 →
      merge_sort (fun x : String × Int => x.2) false [("a", 3), ("b", 1), ("c", 2)] =
        [("a", 3), ("b", 1), ("c", 2)]) :=
  claim_C5 (fun x : String × Int => x.2) false [("a", 3), ("b", 1), ("c", 2)]

/-! ### BFS (`src/algorithms/search.py`) -/

/-- The cutoff test `max_depth is not None and depth >= max_depth`. -/
def stopExpand (md : Option Nat) (depth : Nat) : Bool :=
  match md with
  | none => false
  | some m => depth ≥ m

/-- The neighbor loop of `bfs`: record unseen neighbors at depth `d` into
`visited` and collect them for the queue (`acc`). -/
def enqueueNbrs (d : Nat) : Adj → List (String × Nat) → List (String × Nat) →
    (List (String × Nat)) × (List (String × Nat))
  | [], visited, acc => (visited, acc)
  | (n, _) :: t, visited, acc =>
    if (dlookup n visited).isSome then enqueueNbrs d t visited acc
    else enqueueNbrs d t (visited ++ [(n, d)]) (acc ++ [(n, d)])

/-- The `while queue:` loop of `bfs`.  The fuel argument only serves
termination: the loop provably ends within `totalAdjSize g + 2` iterations
(`bfsLoop_ok`), so the out-of-fuel branch is unreachable on well-formed
graphs. -/
def bfsLoop (g : Graph) (md : Option Nat) :
    Nat → List (String × Nat) → List (String × Nat) → Except Err (List (String × Nat))
  | 0, _, _ => .error .notFound
  | fuel + 1, visited, queue =>
    match queue with
    | [] => .ok visited
    | (current, depth) :: qt =>
      if stopExpand md depth then bfsLoop g md fuel visited qt
      else
        match dlookup current g with
        | none => .error .notFound
        | some adj =>
          let r := enqueueNbrs (depth + 1) adj visited []
          bfsLoop g md fuel r.1 (qt ++ r.2)

/-- Total number of adjacency entries of the graph. -/
def totalAdjSize (g : Graph) : Nat :=
  (g.map (fun p => p.2.length)).sum

/-- `bfs(graph, start, max_depth)`: `KeyError` when `start` is absent, else
the level-order depth map. -/
def bfs (g : Graph) (start : String) (md : Option Nat) :
    Except Err (List (String × Nat)) :=
  if ¬ has_node g start = true then .error .notFound
  else bfsLoop g md (totalAdjSize g + 2) [(start, 0)] [(start, 0)]

/-- Paths: `ReachesIn g s v n` when there is a walk of `n` edges from `s`
to `v` in `g`. -/
inductive ReachesIn (g : Graph) (s : String) : String → Nat → Prop where
  | refl : ReachesIn g s s 0
  | step {u v : String} {n : Nat} : ReachesIn g s u n → has_edge g u v = true →
      ReachesIn g s v (n + 1)

/-- The depth bound `d ≤ maxDepth` (trivial when unbounded). -/
def capLe (d : Nat) (md : Option Nat) : Prop :=
  match md with
  | none => True
  | some m => d ≤ m

/-- All neighbor keys occurring in the adjacency structure. -/
def allAdjKeys (g : Graph) : List String :=
  g.flatMap (fun p => keys p.2)

/-- Number of potential BFS discoveries left: adjacency keys not yet
visited. -/
def potential (g : Graph) (visited : List (String × Nat)) : Nat :=
  ((allAdjKeys g).toFinset \ (keys visited).toFinset).card

theorem capLe_zero (md : Option Nat) : capLe 0 md := by
  unfold capLe
  cases md
  · trivial
  · exact Nat.zero_le _

theorem capLe_of_le {d k : Nat} {md : Option Nat} (h : d ≤ k) (hk : capLe k md) :
    capLe d md := by
  unfold capLe at hk ⊢
  cases md
  · trivial
  · exact le_trans h hk

theorem capLe_succ_of_not_stop {md : Option Nat} {depth : Nat}
    (h : ¬ stopExpand md depth = true) : capLe (depth + 1) md := by
  unfold stopExpand at h
  unfold capLe
  cases md
  · trivial
  · rename_i m
    simp only [ge_iff_le, decide_eq_true_eq] at h
    omega

theorem not_stop_of_capLe_lt {md : Option Nat} {du k : Nat}
    (hstop : stopExpand md du = true) (hcap : capLe (k + 1) md) (hle : du ≤ k) :
    False := by
  unfold stopExpand at hstop
  unfold capLe at hcap
  cases md
  · simp at hstop
  · rename_i m
    simp only [ge_iff_le, decide_eq_true_eq] at hstop
    omega

theorem dlookup_append_of_some {β : Type} {k : String} {v : β}
    {l r : List (String × β)} (h : dlookup k l = some v) :
    dlookup k (l ++ r) = some v := by
  rw [dlookup_append, h]

theorem dlookup_append_of_none {β : Type} {k : String}
    {l r : List (String × β)} (h : dlookup k l = none) :
    dlookup k (l ++ r) = dlookup k r := by
  rw [dlookup_append, h]

theorem keys_subset_allAdjKeys {g : Graph} {a : String} {adj : Adj}
    (h : dlookup a g = some adj) : ∀ n ∈ keys adj, n ∈ allAdjKeys g := by
  intro n hn
  unfold allAdjKeys
  rw [List.mem_flatMap]
  exact ⟨(a, adj), dlookup_mem h, hn⟩

theorem length_allAdjKeys (g : Graph) : (allAdjKeys g).length = totalAdjSize g := by
  unfold allAdjKeys totalAdjSize
  rw [List.length_flatMap]
  congr 1
  apply List.map_congr_left
  intro p _
  unfold keys
  simp

/-- Full characterization of the neighbor loop. -/
theorem enqueueNbrs_spec (d : Nat) :
    ∀ (adj : Adj) (visited acc : List (String × Nat)),
      ∃ new : List (String × Nat),
        enqueueNbrs d adj visited acc = (visited ++ new, acc ++ new) ∧
        (∀ p ∈ new, p.2 = d ∧ p.1 ∈ keys adj ∧ dlookup p.1 visited = none) ∧
        (keys new).Nodup ∧
        (∀ n ∈ keys adj, (dlookup n (visited ++ new)).isSome = true) := by
  intro adj
  induction adj with
  | nil =>
    intro visited acc
    exact ⟨[], by simp [enqueueNbrs], by simp, by simp, by simp⟩
  | cons p t ih =>
    obtain ⟨n, w⟩ := p
    intro visited acc
    unfold enqueueNbrs
    split <;> rename_i hmem
    · obtain ⟨new, heq, hprops, hnd, hcover⟩ := ih visited acc
      refine ⟨new, heq, ?_, hnd, ?_⟩
      · intro q hq
        obtain ⟨h1, h2, h3⟩ := hprops q hq
        exact ⟨h1, List.mem_cons_of_mem _ h2, h3⟩
      · intro n2 hn2
        rcases List.mem_cons.mp hn2 with rfl | hn3
        · obtain ⟨v, hv⟩ := Option.isSome_iff_exists.mp hmem
          rw [dlookup_append_of_some hv]
          rfl
        · exact hcover n2 hn3
    · have hnone : dlookup n visited = none := Option.not_isSome_iff_eq_none.mp hmem
      obtain ⟨new2, heq, hprops, hnd, hcover⟩ := ih (visited ++ [(n, d)]) (acc ++ [(n, d)])
      have hassoc1 : visited ++ [(n, d)] ++ new2 = visited ++ ((n, d) :: new2) := by
        rw [List.append_assoc]
        rfl
      have hassoc2 : acc ++ [(n, d)] ++ new2 = acc ++ ((n, d) :: new2) := by
        rw [List.append_assoc]
        rfl
      refine ⟨(n, d) :: new2, by rw [heq, hassoc1, hassoc2], ?_, ?_, ?_⟩
      · intro q hq
        rcases List.mem_cons.mp hq with rfl | hq2
        · exact ⟨rfl, List.mem_cons_self _ _, hnone⟩
        · obtain ⟨h1, h2, h3⟩ := hprops q hq2
          refine ⟨h1, List.mem_cons_of_mem _ h2, ?_⟩
          rw [dlookup_append] at h3
          cases hvq : dlookup q.1 visited with
          | none => rfl
          | some v => rw [hvq] at h3; exact Option.noConfusion h3
      · rw [keys_cons, List.nodup_cons]
        refine ⟨?_, hnd⟩
        intro hc
        rw [mem_keys] at hc
        obtain ⟨v, hv⟩ := hc
        obtain ⟨-, -, h3⟩ := hprops (n, v) hv
        rw [dlookup_append_of_none hnone] at h3
        simp [dlookup] at h3
      · intro n2 hn2
        rcases List.mem_cons.mp hn2 with rfl | hn3
        · rw [dlookup_append_of_none hnone]
          simp [dlookup]
        · have := hcover n2 hn3
          rwa [hassoc1] at this

/-- Loop invariant of `bfsLoop`: visited entries carry their exact shortest
hop distance (within the bound), queue entries mirror visited, queue depths
are non-decreasing and span at most two levels, and every visited node is
pending, cut off, or fully expanded. -/
structure BfsInv (g : Graph) (md : Option Nat) (s : String)
    (visited queue : List (String × Nat)) : Prop where
  vnodup : (keys visited).Nodup
  qmem : ∀ e ∈ queue, dlookup e.1 visited = some e.2
  vstart : dlookup s visited = some 0
  vdist : ∀ e ∈ visited, ReachesIn g s e.1 e.2 ∧ ∀ k, ReachesIn g s e.1 k → e.2 ≤ k
  vbound : ∀ e ∈ visited, capLe e.2 md
  vnode : ∀ e ∈ visited, has_node g e.1 = true
  qsorted : queue.Pairwise (fun x y => x.2 ≤ y.2 ∧ y.2 ≤ x.2 + 1)
  processed : ∀ e ∈ visited, (∃ q ∈ queue, q.1 = e.1) ∨ stopExpand md e.2 = true ∨
      ∀ n ∈ keys (getAdj g e.1), ∃ d2, dlookup n visited = some d2

/-- Frontier completeness: every node with a within-bound walk of length at
most the minimum queue depth is already visited. -/
theorem bfs_frontier {g : Graph} {md : Option Nat} {s : String}
    {visited queue : List (String × Nat)} (inv : BfsInv g md s visited queue)
    {D : Nat} (hD : ∀ e ∈ queue, D ≤ e.2) :
    ∀ k, k ≤ D → capLe k md → ∀ v, ReachesIn g s v k →
      (dlookup v visited).isSome = true := by
  intro k
  induction k with
  | zero =>
    intro _ _ v hreach
    cases hreach with
    | refl =>
      rw [inv.vstart]
      rfl
  | succ k ihk =>
    intro hkD hcap v hreach
    cases hreach with
    | @step u _ _ hu hedge =>
      have hu_vis := ihk (Nat.le_of_succ_le hkD)
        (capLe_of_le (Nat.le_succ k) hcap) _ hu
      obtain ⟨du, hdu⟩ := Option.isSome_iff_exists.mp hu_vis
      have humem : (u, du) ∈ visited := dlookup_mem hdu
      have hdist := inv.vdist _ humem
      have hdu_le : du ≤ k := hdist.2 k hu
      rcases inv.processed _ humem with hc | hc | hc
      · obtain ⟨q, hq, hq1⟩ := hc
        have hqv := inv.qmem q hq
        rw [hq1] at hqv
        rw [hdu] at hqv
        injection hqv with hv
        have hDq := hD q hq
        omega
      · exact (not_stop_of_capLe_lt hc hcap hdu_le).elim
      · have hv_in : v ∈ keys (getAdj g u) := by
          rw [has_edge_eq] at hedge
          rw [← dlookup_isSome_iff]
          exact hedge
        obtain ⟨d2, hd2⟩ := hc v hv_in
        rw [hd2]
        rfl

theorem potential_append {g : Graph} {visited new : List (String × Nat)}
    (hsub : ∀ p ∈ new, p.1 ∈ allAdjKeys g)
    (hdisj : ∀ p ∈ new, dlookup p.1 visited = none)
    (hnd : (keys new).Nodup) :
    potential g (visited ++ new) + new.length = potential g visited := by
  unfold potential
  rw [keys_append, List.toFinset_append]
  have hNsub : (keys new).toFinset ⊆
      (allAdjKeys g).toFinset \ (keys visited).toFinset := by
    intro x hx
    rw [List.mem_toFinset] at hx
    rw [Finset.mem_sdiff, List.mem_toFinset, List.mem_toFinset]
    rw [mem_keys] at hx
    obtain ⟨v, hv⟩ := hx
    exact ⟨hsub _ hv, (dlookup_eq_none_iff _ _).mp (hdisj _ hv)⟩
  have hsdiff : (allAdjKeys g).toFinset \ ((keys visited).toFinset ∪ (keys new).toFinset)
      = ((allAdjKeys g).toFinset \ (keys visited).toFinset) \ (keys new).toFinset := by
    apply Finset.ext
    intro x
    simp only [Finset.mem_sdiff, Finset.mem_union]
    tauto
  rw [hsdiff, Finset.card_sdiff hNsub]
  have hcard : (keys new).toFinset.card = new.length := by
    rw [List.toFinset_card_of_nodup hnd]
    unfold keys
    rw [List.length_map]
  have hle : (keys new).toFinset.card ≤
      ((allAdjKeys g).toFinset \ (keys visited).toFinset).card :=
    Finset.card_le_card hNsub
  omega

theorem pairwise_of_all {α : Type} {R : α → α → Prop} :
    ∀ (l : List α), (∀ x ∈ l, ∀ y ∈ l, R x y) → l.Pairwise R := by
  intro l
  induction l with
  | nil => intro _; exact .nil
  | cons a t ih =>
    intro h
    rw [List.pairwise_cons]
    exact ⟨fun y hy => h a (List.mem_cons_self _ _) y (List.mem_cons_of_mem _ hy),
      ih (fun x hx y hy => h x (List.mem_cons_of_mem _ hx) y (List.mem_cons_of_mem _ hy))⟩

/-- The BFS loop drains its queue within the fuel bound and keeps the
invariant. -/
theorem bfsLoop_ok {g : Graph} (wf : Wf g) (md : Option Nat) (s : String) :
    ∀ (fuel : Nat) (visited queue : List (String × Nat)),
      BfsInv g md s visited queue →
      1 + queue.length + potential g visited ≤ fuel →
      ∃ m, bfsLoop g md fuel visited queue = .ok m ∧ BfsInv g md s m [] := by
  intro fuel
  induction fuel with
  | zero =>
    intro visited queue inv hfuel
    exact absurd hfuel (by omega)
  | succ fuel ih =>
    intro visited queue inv hfuel
    cases queue with
    | nil => exact ⟨visited, rfl, inv⟩
    | cons e qt =>
      obtain ⟨current, depth⟩ := e
      have hcd_look : dlookup current visited = some depth :=
        inv.qmem _ (List.mem_cons_self _ _)
      have hcd_mem : (current, depth) ∈ visited := dlookup_mem hcd_look
      have hqt_depth : ∀ e ∈ qt, depth ≤ e.2 ∧ e.2 ≤ depth + 1 := by
        have hps := inv.qsorted
        rw [List.pairwise_cons] at hps
        exact fun e he => hps.1 e he
      by_cases hstop : stopExpand md depth = true
      · have hloop : bfsLoop g md (fuel + 1) visited ((current, depth) :: qt) =
            bfsLoop g md fuel visited qt := by
          simp [bfsLoop, hstop]
        rw [hloop]
        apply ih visited qt ?_ ?_
        · refine ⟨inv.vnodup, ?_, inv.vstart, inv.vdist, inv.vbound, inv.vnode, ?_, ?_⟩
          · exact fun e he => inv.qmem e (List.mem_cons_of_mem _ he)
          · exact (List.pairwise_cons.mp inv.qsorted).2
          · intro e he
            rcases inv.processed e he with hc | hc | hc
            · obtain ⟨q, hq, hq1⟩ := hc
              rcases List.mem_cons.mp hq with rfl | hq2
              · right; left
                have he2 : dlookup e.1 visited = some e.2 := by
                  apply mem_dlookup inv.vnodup
                  rw [Prod.mk.eta]
                  exact he
                rw [← hq1] at he2
                rw [hcd_look] at he2
                injection he2 with he3
                rw [← he3]
                exact hstop
              · exact Or.inl ⟨q, hq2, hq1⟩
            · exact Or.inr (Or.inl hc)
            · exact Or.inr (Or.inr hc)
        · simp only [List.length_cons] at hfuel
          omega
      · have hnode : has_node g current = true := inv.vnode _ hcd_mem
        have hadj : dlookup current g = some (getAdj g current) := dlookup_eq_getAdj hnode
        obtain ⟨new, henq, hprops, hndnew, hcover⟩ :=
          enqueueNbrs_spec (depth + 1) (getAdj g current) visited []
        have hloop : bfsLoop g md (fuel + 1) visited ((current, depth) :: qt) =
            bfsLoop g md fuel (visited ++ new) (qt ++ new) := by
          simp [bfsLoop, hstop, hadj, henq]
        rw [hloop]
        have hnewdisj : ∀ p ∈ new, dlookup p.1 visited = none :=
          fun p hp => (hprops p hp).2.2
        have hnewsub : ∀ p ∈ new, p.1 ∈ allAdjKeys g := fun p hp =>
          keys_subset_allAdjKeys hadj p.1 (hprops p hp).2.1
        have hlook_pres : ∀ (x : String) (dx : Nat), dlookup x visited = some dx →
            dlookup x (visited ++ new) = some dx :=
          fun x dx h => dlookup_append_of_some h
        have hlook_new : ∀ p ∈ new, dlookup p.1 (visited ++ new) = some p.2 := by
          intro p hp
          rw [dlookup_append_of_none (hnewdisj p hp)]
          apply mem_dlookup hndnew
          rw [Prod.mk.eta]
          exact hp
        have hdedge : ∀ p ∈ new, has_edge g current p.1 = true := by
          intro p hp
          rw [has_edge_eq, dlookup_isSome_iff]
          exact (hprops p hp).2.1
        have hdepth_new : ∀ p ∈ new, p.2 = depth + 1 := fun p hp => (hprops p hp).1
        have hD2 : ∀ e ∈ (current, depth) :: qt, depth ≤ e.2 := by
          intro e he
          rcases List.mem_cons.mp he with rfl | he2
          · exact le_refl _
          · exact (hqt_depth e he2).1
        have hmin_new : ∀ p ∈ new, ∀ k, ReachesIn g s p.1 k → depth + 1 ≤ k := by
          intro p hp k hk
          by_contra hlt
          push_neg at hlt
          have hkd : k ≤ depth := by omega
          have hcapk : capLe k md :=
            capLe_of_le (by omega) (capLe_succ_of_not_stop hstop)
          have hvis := bfs_frontier inv hD2 k hkd hcapk p.1 hk
          rw [hnewdisj p hp] at hvis
          simp at hvis
        have inv2 : BfsInv g md s (visited ++ new) (qt ++ new) := by
          refine ⟨?_, ?_, ?_, ?_, ?_, ?_, ?_, ?_⟩
          · rw [keys_append, List.nodup_append]
            refine ⟨inv.vnodup, hndnew, ?_⟩
            intro x hx hx2
            rw [mem_keys] at hx2
            obtain ⟨v, hv⟩ := hx2
            have hn := hnewdisj (x, v) hv
            rw [dlookup_eq_none_iff] at hn
            exact hn hx
          · intro e he
            rcases List.mem_append.mp he with he | he
            · exact hlook_pres _ _ (inv.qmem e (List.mem_cons_of_mem _ he))
            · exact hlook_new e he
          · exact hlook_pres _ _ inv.vstart
          · intro e he
            rcases List.mem_append.mp he with he | he
            · exact inv.vdist e he
            · constructor
              · have hreach_c := (inv.vdist _ hcd_mem).1
                have hstep := ReachesIn.step hreach_c (hdedge e he)
                rw [hdepth_new e he]
                exact hstep
              · rw [hdepth_new e he]
                exact hmin_new e he
          · intro e he
            rcases List.mem_append.mp he with he | he
            · exact inv.vbound e he
            · rw [hdepth_new e he]
              exact capLe_succ_of_not_stop hstop
          · intro e he
            rcases List.mem_append.mp he with he | he
            · exact inv.vnode e he
            · have hk := (hprops e he).2.1
              rw [← dlookup_isSome_iff] at hk
              exact wf.closed current e.1 hk
          · rw [List.pairwise_append]
            refine ⟨(List.pairwise_cons.mp inv.qsorted).2, ?_, ?_⟩
            · apply pairwise_of_all
              intro x hx y hy
              rw [hdepth_new x hx, hdepth_new y hy]
              constructor <;> omega
            · intro x hx y hy
              have h1 := hqt_depth x hx
              have h2 := hdepth_new y hy
              constructor <;> omega
          · intro e he
            rcases List.mem_append.mp he with he | he
            · by_cases hecur : e.1 = current
              · right; right
                intro n hn
                rw [hecur] at hn
                exact Option.isSome_iff_exists.mp (hcover n hn)
              · rcases inv.processed e he with hc | hc | hc
                · obtain ⟨q, hq, hq1⟩ := hc
                  rcases List.mem_cons.mp hq with rfl | hq2
                  · exact absurd hq1.symm hecur
                  · exact Or.inl ⟨q, List.mem_append.mpr (Or.inl hq2), hq1⟩
                · exact Or.inr (Or.inl hc)
                · right; right
                  intro n hn
                  obtain ⟨d2, hd2⟩ := hc n hn
                  exact ⟨d2, hlook_pres _ _ hd2⟩
            · exact Or.inl ⟨e, List.mem_append.mpr (Or.inr he), rfl⟩
        apply ih _ _ inv2
        have hpot := potential_append hnewsub hnewdisj hndnew
        simp only [List.length_append, List.length_cons] at hfuel ⊢
        omega

/-- A successful run of `bfs` on a present start node, with its final
invariant. -/
theorem bfs_run {g : Graph} (wf : Wf g) {start : String}
    (hsn : has_node g start = true) (md : Option Nat) :
    ∃ m, bfs g start md = .ok m ∧ BfsInv g md start m [] := by
  have inv0 : BfsInv g md start [(start, 0)] [(start, 0)] := by
    refine ⟨?_, ?_, ?_, ?_, ?_, ?_, ?_, ?_⟩
    · simp [keys]
    · intro e he
      rcases List.mem_cons.mp he with rfl | he2
      · simp [dlookup]
      · simp at he2
    · simp [dlookup]
    · intro e he
      rcases List.mem_cons.mp he with rfl | he2
      · exact ⟨.refl, fun k _ => Nat.zero_le k⟩
      · simp at he2
    · intro e he
      rcases List.mem_cons.mp he with rfl | he2
      · exact capLe_zero md
      · simp at he2
    · intro e he
      rcases List.mem_cons.mp he with rfl | he2
      · exact hsn
      · simp at he2
    · simp
    · intro e he
      rcases List.mem_cons.mp he with rfl | he2
      · exact Or.inl ⟨(start, 0), List.mem_cons_self _ _, rfl⟩
      · simp at he2
  have hfuel : 1 + ([(start, 0)] : List (String × Nat)).length +
      potential g [(start, 0)] ≤ totalAdjSize g + 2 := by
    have h1 : potential g [(start, 0)] ≤ (allAdjKeys g).toFinset.card :=
      Finset.card_le_card Finset.sdiff_subset
    have h2 : (allAdjKeys g).toFinset.card ≤ (allAdjKeys g).length :=
      List.toFinset_card_le _
    rw [length_allAdjKeys] at h2
    simp only [List.length_cons, List.length_nil]
    omega
  obtain ⟨m, hm, invm⟩ :=
    bfsLoop_ok wf md start (totalAdjSize g + 2) _ _ inv0 hfuel
  have hbfs : bfs g start md =
      bfsLoop g md (totalAdjSize g + 2) [(start, 0)] [(start, 0)] := by
    unfold bfs
    rw [if_neg (by simp [hsn])]
  exact ⟨m, by rw [hbfs]; exact hm, invm⟩

/-- C3: on a well-formed graph, `bfs` fails with `NotFound` exactly when the
start node is absent; otherwise it returns the map sending each node whose
shortest-hop distance `d` from `start` satisfies `d ≤ maxDepth` to that
distance — nodes beyond the bound and nodes disconnected from `start` never
appear, and `maxDepth = some 0` yields only `{start: 0}` (the `d = 0`
instance of the characterization). -/
theorem claim_C3 {g : Graph} (wf : Wf g) (start : String) (md : Option Nat) :
    (bfs g start md = .error .notFound ↔ has_node g start = false) ∧
    (has_node g start = true → ∃ m, bfs g start md = .ok m ∧
      ∀ v d, dlookup v m = some d ↔
        ReachesIn g start v d ∧ (∀ k, ReachesIn g start v k → d ≤ k) ∧ capLe d md) := by
  by_cases hsn : has_node g start = true
  · obtain ⟨m, hm, invm⟩ := bfs_run wf hsn md
    constructor
    · rw [hm]
      constructor
      · intro h
        exact Except.noConfusion h
      · intro h
        rw [hsn] at h
        exact Bool.noConfusion h
    · intro _
      refine ⟨m, hm, ?_⟩
      intro v d
      constructor
      · intro h
        have hmem := dlookup_mem h
        obtain ⟨h1, h2⟩ := invm.vdist _ hmem
        exact ⟨h1, h2, invm.vbound _ hmem⟩
      · rintro ⟨hr, hmin, hcap⟩
        have hvis := bfs_frontier invm (D := d) (by simp) d le_rfl hcap v hr
        obtain ⟨d2, hd2⟩ := Option.isSome_iff_exists.mp hvis
        have hmem := dlookup_mem hd2
        obtain ⟨h1, h2⟩ := invm.vdist _ hmem
        have heq : d2 = d := le_antisymm (h2 d hr) (hmin d2 h1)
        rw [hd2, heq]
  · have hsn2 : has_node g start = false := by
      cases h : has_node g start
      · rfl
      · exact absurd h hsn
    have hbfs : bfs g start md = .error .notFound := by
      unfold bfs
      rw [if_pos hsn]
    constructor
    · rw [hbfs]
      exact ⟨fun _ => hsn2, fun _ => rfl⟩
    · intro h
      exact absurd h hsn

/-- Witness for C3 at a concrete reachable graph with unbounded depth. -/
theorem claim_C3_witness :
    (bfs [("a", [("b", 2)]), ("b", [("a", 2)])] "a" none = .error .notFound ↔
      has_node [("a", [("b", 2)]), ("b", [("a", 2)])] "a" = false) ∧
    (has_node [("a", [("b", 2)]), ("b", [("a", 2)])] "a" = true →
      ∃ m, bfs [("a", [("b", 2)]), ("b", [("a", 2)])] "a" none = .ok m ∧
        ∀ v d, dlookup v m = some d ↔
          ReachesIn [("a", [("b", 2)]), ("b", [("a", 2)])] "a" v d ∧
          (∀ k, ReachesIn [("a", [("b", 2)]), ("b", [("a", 2)])] "a" v k → d ≤ k) ∧
          capLe d none) :=
  claim_C3 (wf_reachable (ReachableG.addEdge (a := "a") (b := "b") (w := 2)
    ReachableG.empty (by rfl))) "a" none

/-! ### Depth-first search (`src/algorithms/search.py`, `dfs`) -/

/-- The neighbor loop of `_dfs_recursive`: iterate over the adjacency
entries, recursing (through `rec`, the recursive call at the next depth)
on each neighbor not yet visited. -/
def dfsNbrs (rec : String → List String → Except Err (List String)) :
    Adj → List String → Except Err (List String)
  | [], vis => .ok vis
  | (n, _) :: t, vis =>
    if n ∈ vis then dfsNbrs rec t vis
    else
      match rec n vis with
      | .error e => .error e
      | .ok vis2 => dfsNbrs rec t vis2

/-- `_dfs_recursive(node, depth)` threading the `visited` list explicitly.
The node is appended on entry, then the depth cutoff is checked, then the
neighbors are explored.  `fuel` bounds the recursion nesting; `dfs`
supplies enough fuel that the `fuel = 0` branch is unreachable (every
nested call strictly shrinks the set of unvisited nodes, see
`dfsAux_ok`). -/
def dfsAux (g : Graph) (md : Option Nat) :
    Nat → String → Nat → List String → Except Err (List String)
  | 0, _, _, _ => .error .notFound
  | fuel + 1, node, depth, vis =>
    let vis1 := vis ++ [node]
    if stopExpand md depth then .ok vis1
    else
      match get_neighbors g node with
      | .error e => .error e
      | .ok adj => dfsNbrs (fun n v => dfsAux g md fuel n (depth + 1) v) adj vis1

/-- `dfs(graph, start, max_depth)`. -/
def dfs (g : Graph) (start : String) (md : Option Nat) :
    Except Err (List String) :=
  if ¬ has_node g start = true then .error .notFound
  else dfsAux g md (g.length + 2) start 0 []

/-- Number of nodes of `g` not yet visited: the DFS recursion measure. -/
def nodePotential (g : Graph) (vis : List String) : Nat :=
  ((keys g).toFinset \ vis.toFinset).card

theorem nodePotential_mono (g : Graph) {A B : List String}
    (h : ∀ x ∈ A, x ∈ B) : nodePotential g B ≤ nodePotential g A := by
  apply Finset.card_le_card
  apply Finset.sdiff_subset_sdiff le_rfl
  intro x hx
  rw [List.mem_toFinset] at hx ⊢
  exact h x hx

theorem nodePotential_append_lt (g : Graph) {vis : List String} {node : String}
    (hn : node ∈ keys g) (hnv : node ∉ vis) :
    nodePotential g (vis ++ [node]) < nodePotential g vis := by
  apply Finset.card_lt_card
  rw [Finset.ssubset_def]
  constructor
  · apply Finset.sdiff_subset_sdiff le_rfl
    intro x hx
    rw [List.mem_toFinset] at hx ⊢
    exact List.mem_append.mpr (Or.inl hx)
  · intro hsub
    have hmem : node ∈ (keys g).toFinset \ vis.toFinset := by
      rw [Finset.mem_sdiff, List.mem_toFinset, List.mem_toFinset]
      exact ⟨hn, hnv⟩
    have h2 := hsub hmem
    rw [Finset.mem_sdiff, List.mem_toFinset, List.mem_toFinset] at h2
    exact h2.2 (List.mem_append.mpr (Or.inr (List.mem_singleton.mpr rfl)))

theorem reachesIn_trans {g : Graph} {s u v : String} {a b : Nat}
    (h1 : ReachesIn g s u a) (h2 : ReachesIn g u v b) :
    ReachesIn g s v (a + b) := by
  induction h2 with
  | refl => exact h1
  | step _ he ih => exact .step ih he

/-- Master lemma for `dfsAux` on a well-formed graph: with enough fuel it
succeeds, extends `vis` by first appending `node`, keeps the list
duplicate-free over graph nodes, only visits nodes reachable from `node`,
and (when unbounded) leaves every visited node fully expanded. -/
theorem dfsAux_ok {g : Graph} (wf : Wf g) (md : Option Nat) :
    ∀ (fuel : Nat) (node : String) (depth : Nat) (vis : List String),
      has_node g node = true → node ∉ vis → vis.Nodup →
      (∀ x ∈ vis, has_node g x = true) →
      nodePotential g vis < fuel →
      ∃ res, dfsAux g md fuel node depth vis = .ok res ∧
        (∃ tail, res = (vis ++ [node]) ++ tail) ∧
        res.Nodup ∧
        (∀ x ∈ res, has_node g x = true) ∧
        (∀ x ∈ res, x ∈ vis ∨ ∃ k, ReachesIn g node x k) ∧
        (md = none → ∀ x ∈ res, x ∈ vis ∨
          ∀ y ∈ keys (getAdj g x), y ∈ res) := by
  intro fuel
  induction fuel with
  | zero =>
    intro node depth vis _ _ _ _ hpot
    exact absurd hpot (Nat.not_lt_zero _)
  | succ fuel ih =>
    intro node depth vis hn hnv hnd hall hpot
    have hkg : node ∈ keys g := (has_node_iff_mem_keys g node).mp hn
    have hnd1 : (vis ++ [node]).Nodup := by
      rw [List.nodup_append]
      refine ⟨hnd, List.nodup_singleton _, ?_⟩
      intro a ha hb
      rw [List.mem_singleton] at hb
      subst hb
      exact hnv ha
    have hall1 : ∀ x ∈ vis ++ [node], has_node g x = true := by
      intro x hx
      rcases List.mem_append.mp hx with h | h
      · exact hall x h
      · rw [List.mem_singleton] at h
        subst h
        exact hn
    by_cases hstop : stopExpand md depth = true
    · refine ⟨vis ++ [node], ?_, ⟨[], by simp⟩, hnd1, hall1, ?_, ?_⟩
      · show dfsAux g md (fuel + 1) node depth vis = .ok (vis ++ [node])
        simp [dfsAux, hstop]
      · intro x hx
        rcases List.mem_append.mp hx with h | h
        · exact Or.inl h
        · rw [List.mem_singleton] at h
          subst h
          exact Or.inr ⟨0, .refl⟩
      · intro hmd
        subst hmd
        simp [stopExpand] at hstop
    · obtain ⟨adj, hadj⟩ : ∃ adj, dlookup node g = some adj := by
        rw [← Option.isSome_iff_exists]
        exact hn
      have hgadj : getAdj g node = adj := by
        unfold getAdj
        rw [hadj]
        rfl
      have hadjprop : ∀ p ∈ adj, has_node g p.1 = true ∧
          has_edge g node p.1 = true := by
        intro p hp
        obtain ⟨n, w⟩ := p
        have hiso : (dlookup n (getAdj g node)).isSome = true := by
          rw [dlookup_isSome_iff, hgadj]
          exact mem_keys.mpr ⟨w, hp⟩
        exact ⟨wf.closed node n hiso, by rw [has_edge_eq]; exact hiso⟩
      have hnbrs : ∀ (adj2 : Adj),
          (∀ p ∈ adj2, has_node g p.1 = true ∧ has_edge g node p.1 = true) →
          ∀ (vis2 : List String),
          (∀ x ∈ vis ++ [node], x ∈ vis2) → vis2.Nodup →
          (∀ x ∈ vis2, has_node g x = true) →
          ∃ res, dfsNbrs (fun n v => dfsAux g md fuel n (depth + 1) v) adj2 vis2
              = .ok res ∧
            (∃ tail, res = vis2 ++ tail) ∧ res.Nodup ∧
            (∀ x ∈ res, has_node g x = true) ∧
            (∀ x ∈ res, x ∈ vis2 ∨ ∃ k, ReachesIn g node x k) ∧
            (∀ p ∈ adj2, p.1 ∈ res) ∧
            (md = none → ∀ x ∈ res, x ∈ vis2 ∨
              ∀ y ∈ keys (getAdj g x), y ∈ res) := by
        intro adj2
        induction adj2 with
        | nil =>
          intro _ vis2 _ hnd2 hall2
          exact ⟨vis2, rfl, ⟨[], by simp⟩, hnd2, hall2,
            fun x hx => Or.inl hx,
            fun p hp => absurd hp (List.not_mem_nil _),
            fun _ x hx => Or.inl hx⟩
        | cons p t iht =>
          obtain ⟨n, w⟩ := p
          intro hprop vis2 hsup hnd2 hall2
          have hpropt : ∀ q ∈ t, has_node g q.1 = true ∧
              has_edge g node q.1 = true :=
            fun q hq => hprop q (List.mem_cons_of_mem _ hq)
          by_cases hmem : n ∈ vis2
          · obtain ⟨res, heq, hpre, hnodup, hnodes, hreach, hcov, hclose⟩ :=
              iht hpropt vis2 hsup hnd2 hall2
            refine ⟨res, ?_, hpre, hnodup, hnodes, hreach, ?_, hclose⟩
            · show dfsNbrs (fun n v => dfsAux g md fuel n (depth + 1) v)
                ((n, w) :: t) vis2 = .ok res
              rw [dfsNbrs, if_pos hmem]
              exact heq
            · intro q hq
              rcases List.mem_cons.mp hq with rfl | hq2
              · obtain ⟨tail, htail⟩ := hpre
                rw [htail]
                exact List.mem_append.mpr (Or.inl hmem)
              · exact hcov q hq2
          · have hn2 : has_node g n = true :=
              (hprop (n, w) (List.mem_cons_self _ _)).1
            have hpot2 : nodePotential g vis2 < fuel := by
              have h1 : nodePotential g vis2 ≤ nodePotential g (vis ++ [node]) :=
                nodePotential_mono g hsup
              have h2 : nodePotential g (vis ++ [node]) < nodePotential g vis :=
                nodePotential_append_lt g hkg hnv
              omega
            obtain ⟨res1, heq1, ⟨tail1, htail1⟩, hnodup1, hnodes1, hreach1, hclose1⟩ :=
              ih n (depth + 1) vis2 hn2 hmem hnd2 hall2 hpot2
            have hsup3 : ∀ x ∈ vis ++ [node], x ∈ res1 := by
              intro x hx
              rw [htail1]
              exact List.mem_append.mpr
                (Or.inl (List.mem_append.mpr (Or.inl (hsup x hx))))
            obtain ⟨res, heq, ⟨tail2, htail2⟩, hnodup, hnodes, hreach, hcov, hclose⟩ :=
              iht hpropt res1 hsup3 hnodup1 hnodes1
            refine ⟨res, ?_, ?_, hnodup, hnodes, ?_, ?_, ?_⟩
            · show dfsNbrs (fun n v => dfsAux g md fuel n (depth + 1) v)
                ((n, w) :: t) vis2 = .ok res
              rw [dfsNbrs, if_neg hmem]
              show (match dfsAux g md fuel n (depth + 1) vis2 with
                | Except.error e => Except.error e
                | Except.ok vis2 => dfsNbrs
                    (fun n v => dfsAux g md fuel n (depth + 1) v) t vis2)
                  = Except.ok res
              rw [heq1]
              exact heq
            · refine ⟨[n] ++ tail1 ++ tail2, ?_⟩
              rw [htail2, htail1]
              simp
            · intro x hx
              rcases hreach x hx with hx1 | hx1
              · rcases hreach1 x hx1 with hx2 | hx2
                · exact Or.inl hx2
                · obtain ⟨k, hk⟩ := hx2
                  refine Or.inr ⟨1 + k, ?_⟩
                  have hedge : has_edge g node n = true :=
                    (hprop (n, w) (List.mem_cons_self _ _)).2
                  exact reachesIn_trans (.step .refl hedge) hk
              · exact Or.inr hx1
            · intro q hq
              rcases List.mem_cons.mp hq with rfl | hq2
              · rw [htail2]
                refine List.mem_append.mpr (Or.inl ?_)
                rw [htail1]
                exact List.mem_append.mpr
                  (Or.inl (List.mem_append.mpr
                    (Or.inr (List.mem_singleton.mpr rfl))))
              · exact hcov q hq2
            · intro hmd x hx
              rcases hclose hmd x hx with hx1 | hx1
              · rcases hclose1 hmd x hx1 with hx2 | hx2
                · exact Or.inl hx2
                · refine Or.inr ?_
                  intro y hy
                  have hy2 : y ∈ res1 := hx2 y hy
                  rw [htail2]
                  exact List.mem_append.mpr (Or.inl hy2)
              · exact Or.inr hx1
      obtain ⟨res, heq, hpre, hnodup, hnodes, hreach, hcov, hclose⟩ :=
        hnbrs adj hadjprop (vis ++ [node]) (fun x hx => hx) hnd1 hall1
      refine ⟨res, ?_, hpre, hnodup, hnodes, ?_, ?_⟩
      · show dfsAux g md (fuel + 1) node depth vis = .ok res
        show (if stopExpand md depth = true then Except.ok (vis ++ [node])
          else match get_neighbors g node with
            | Except.error e => Except.error e
            | Except.ok adj =>
                dfsNbrs (fun n v => dfsAux g md fuel n (depth + 1) v)
                  adj (vis ++ [node])) = Except.ok res
        rw [if_neg hstop]
        show (match get_neighbors g node with
          | Except.error e => Except.error e
          | Except.ok adj =>
              dfsNbrs (fun n v => dfsAux g md fuel n (depth + 1) v)
                adj (vis ++ [node])) = Except.ok res
        have hgn : get_neighbors g node = .ok adj := by
          unfold get_neighbors
          rw [hadj]
        rw [hgn]
        exact heq
      · intro x hx
        rcases hreach x hx with hx1 | hx1
        · rcases List.mem_append.mp hx1 with h | h
          · exact Or.inl h
          · rw [List.mem_singleton] at h
            subst h
            exact Or.inr ⟨0, .refl⟩
        · exact Or.inr hx1
      · intro hmd x hx
        rcases hclose hmd x hx with hx1 | hx1
        · rcases List.mem_append.mp hx1 with h | h
          · exact Or.inl h
          · rw [List.mem_singleton] at h
            subst h
            refine Or.inr ?_
            intro y hy
            rw [hgadj] at hy
            rcases mem_keys.mp hy with ⟨v, hv⟩
            exact hcov (y, v) hv
        · exact Or.inr hx1

/-- Counterexample to C4 as stated: on the reachable graph with edges
a–b, b–c, c–d, a–c and the common bound `maxDepth = 2`, `bfs` from `a`
reaches `d` (distance 2) but `dfs` spends its depth budget along the
branch a, b, c and never visits `d`, so the two node sets differ. -/
theorem claim_C4_counterexample :
    ReachableG [("a", [("b", 1), ("c", 1)]), ("b", [("a", 1), ("c", 1)]),
      ("c", [("b", 1), ("d", 1), ("a", 1)]), ("d", [("c", 1)])] ∧
    bfs [("a", [("b", 1), ("c", 1)]), ("b", [("a", 1), ("c", 1)]),
      ("c", [("b", 1), ("d", 1), ("a", 1)]), ("d", [("c", 1)])] "a" (some 2) =
      .ok [("a", 0), ("b", 1), ("c", 1), ("d", 2)] ∧
    dfs [("a", [("b", 1), ("c", 1)]), ("b", [("a", 1), ("c", 1)]),
      ("c", [("b", 1), ("d", 1), ("a", 1)]), ("d", [("c", 1)])] "a" (some 2) =
      .ok ["a", "b", "c"] ∧
    ¬ ("d" ∈ keys [(("a" : String), (0 : Nat)), ("b", 1), ("c", 1), ("d", 2)] ↔
        "d" ∈ (["a", "b", "c"] : List String)) := by
  refine ⟨?_, by rfl, by rfl, by decide⟩
  have h1 : ReachableG [("a", [("b", 1)]), ("b", [("a", 1)])] :=
    ReachableG.addEdge (a := "a") (b := "b") (w := 1) ReachableG.empty (by rfl)
  have h2 : ReachableG [("a", [("b", 1)]), ("b", [("a", 1), ("c", 1)]),
      ("c", [("b", 1)])] :=
    ReachableG.addEdge (a := "b") (b := "c") (w := 1) h1 (by rfl)
  have h3 : ReachableG [("a", [("b", 1)]), ("b", [("a", 1), ("c", 1)]),
      ("c", [("b", 1), ("d", 1)]), ("d", [("c", 1)])] :=
    ReachableG.addEdge (a := "c") (b := "d") (w := 1) h2 (by rfl)
  exact ReachableG.addEdge (a := "a") (b := "c") (w := 1) h3 (by rfl)

/-- C4 (amended): on any well-formed graph with the start node present,
`bfs` and `dfs` both terminate successfully for every `maxDepth`, `dfs`
lists each node at most once, and with unbounded depth the key set of the
`bfs` map equals the set of nodes visited by `dfs`.  (The original
claim's set equality for every common finite bound fails: a bounded `dfs`
can consume its depth budget along a long branch and miss nodes that
`bfs` reaches within the same bound.) -/
theorem claim_C4 {g : Graph} (wf : Wf g) {start : String}
    (hs : has_node g start = true) :
    (∀ md, ∃ m, bfs g start md = .ok m) ∧
    (∀ md, ∃ l, dfs g start md = .ok l ∧ l.Nodup) ∧
    (∃ m l, bfs g start none = .ok m ∧ dfs g start none = .ok l ∧
      ∀ v, v ∈ keys m ↔ v ∈ l) := by
  have hpot0 : nodePotential g [] < g.length + 2 := by
    unfold nodePotential
    have h1 : ((keys g).toFinset \ ([] : List String).toFinset).card ≤
        (keys g).toFinset.card := Finset.card_le_card Finset.sdiff_subset
    have h2 : (keys g).toFinset.card ≤ (keys g).length := List.toFinset_card_le _
    have h3 : (keys g).length = g.length := List.length_map _ _
    omega
  have hdfs0 : ∀ md, dfs g start md = dfsAux g md (g.length + 2) start 0 [] := by
    intro md
    unfold dfs
    rw [if_neg (by simp [hs])]
  refine ⟨?_, ?_, ?_⟩
  · intro md
    obtain ⟨m, hm, _⟩ := bfs_run wf hs md
    exact ⟨m, hm⟩
  · intro md
    obtain ⟨res, heq, _, hnodup, _⟩ :=
      dfsAux_ok wf md (g.length + 2) start 0 [] hs (List.not_mem_nil _)
        List.nodup_nil (fun x hx => absurd hx (List.not_mem_nil _)) hpot0
    exact ⟨res, by rw [hdfs0 md]; exact heq, hnodup⟩
  · obtain ⟨m, hm, invm⟩ := bfs_run wf hs none
    obtain ⟨l, heq, ⟨tail, htail⟩, hnodup, hnodes, hreach, hclose⟩ :=
      dfsAux_ok wf none (g.length + 2) start 0 [] hs (List.not_mem_nil _)
        List.nodup_nil (fun x hx => absurd hx (List.not_mem_nil _)) hpot0
    refine ⟨m, l, hm, by rw [hdfs0 none]; exact heq, ?_⟩
    have hmemdfs : ∀ v k, ReachesIn g start v k → v ∈ l := by
      intro v k hr
      induction hr with
      | refl =>
        rw [htail]
        simp
      | @step u v2 n hu hedge ihu =>
        rcases hclose rfl u ihu with h | h
        · exact absurd h (List.not_mem_nil _)
        · apply h
          rw [has_edge_eq] at hedge
          exact (dlookup_isSome_iff _ _).mp hedge
    intro v
    constructor
    · intro hv
      obtain ⟨d, hd⟩ :=
        Option.isSome_iff_exists.mp ((dlookup_isSome_iff v m).mpr hv)
      have hmem := dlookup_mem hd
      obtain ⟨h1, _⟩ := invm.vdist _ hmem
      exact hmemdfs v d h1
    · intro hv
      rcases hreach v hv with h | h
      · exact absurd h (List.not_mem_nil _)
      · obtain ⟨k, hk⟩ := h
        have hvis := bfs_frontier invm (D := k) (by simp) k le_rfl trivial v hk
        exact (dlookup_isSome_iff v m).mp hvis

/-- Witness for C4 at a concrete reachable two-node graph. -/
theorem claim_C4_witness :
    (∀ md, ∃ m, bfs [("a", [("b", 2)]), ("b", [("a", 2)])] "a" md = .ok m) ∧
    (∀ md, ∃ l, dfs [("a", [("b", 2)]), ("b", [("a", 2)])] "a" md = .ok l ∧
      l.Nodup) ∧
    (∃ m l, bfs [("a", [("b", 2)]), ("b", [("a", 2)])] "a" none = .ok m ∧
      dfs [("a", [("b", 2)]), ("b", [("a", 2)])] "a" none = .ok l ∧
      ∀ v, v ∈ keys m ↔ v ∈ l) :=
  claim_C4 (wf_reachable (ReachableG.addEdge (a := "a") (b := "b") (w := 2)
    ReachableG.empty (by rfl))) (by rfl)

end MBA

section Smoke
open MBA

example : (add_edge [] "a" "b" 2).isOk = true := by decide

example :
    (add_edge [] "a" "b" 2).toOption.get (by decide) =
      [("a", [("b", 2)]), ("b", [("a", 2)])] := by decide

example : add_edge [] "a" "a" 1 = .error .invalidArgument := by rfl

end Smoke
